import Mathlib

/-!
Verification of the FlowPipeAI flow-execution engine.

This file is a shallow embedding, in Lean 4, of the TypeScript engine
`executeFlow` (together with its operator library `processData`,
`processBatch` and the inline SEQUENCE matcher) and of the data model it
operates on.  JavaScript records (objects used as string-keyed maps) are
modelled as association lists `List (String × α)` with JS assignment
semantics (`setEntry` overwrites in place, otherwise appends); JS `number`
values used as integers are modelled as `Int`; JS strings are modelled as
`String`, with all string primitives re-implemented over the character
list `String.data` so that every definition evaluates inside the kernel.
Values flowing through the engine are always either a string or an array
of strings (sources seed strings, every operator returns a string or a
string array, and the previous-results map is the node-results map of the
preceding pass), so the dynamic value universe is modelled by `Value`.

The built-in JavaScript regular-expression engine (`new RegExp(p, 'i')`,
`regex.test`, `String.prototype.replace` with a global regex) is not code
of this repository; it is abstracted as a `RegexEngine` parameter whose
`valid` field tells whether `new RegExp(p)` would throw a `SyntaxError`
(the try/catch fallbacks of the source are modelled by testing `valid`).

The engine's `while` loop is modelled with explicit fuel; `executeFlow`
runs it with fuel `nodes.length + edges.length`, and it is proved below
that this fuel always drains the queue, so a `none` result of the model
corresponds exactly to a non-terminating run of the JavaScript source
(which is possible: `processBatch` loops forever on a negative configured
batch size).  The `processed` field of `EngineState` is a ghost log of the
ids of the dequeued-and-found nodes, in order; no other component ever
reads it, it exists only so that invariants can speak about the history of
the run.
-/

/-- A runtime value of the engine: a string or an array of strings. -/
inductive Value where
  | vstr (s : String)
  | vlist (l : List String)
deriving DecidableEq, Repr

/-- `NodeType` of `types.ts`. -/
inductive NodeType where
  | INPUT
  | PROCESS
  | OUTPUT
  | EMITTER
  | BRANCH
  | MERGE
  | BATCH
  | SEQUENCE
deriving DecidableEq, Repr

/-- `ProcessType` of `types.ts`. -/
inductive ProcessType where
  | SPLIT
  | GREP
  | REPLACE
  | MAP
  | SORT
  | UNIQ
  | JOIN
  | COUNT
  | UPPER
  | LOWER
deriving DecidableEq, Repr

/-- The optional `params` record of `NodeData` in `types.ts`. -/
structure Params where
  pattern : Option String
  replacement : Option String
  delimiter : Option String
  fieldIndex : Option Int
  batchSize : Option Int
deriving DecidableEq, Repr

/-- `NodeData` of `types.ts` (the render-only `label` is kept, positions are not). -/
structure NodeData where
  label : String
  type : NodeType
  processType : Option ProcessType
  params : Option Params
  isActive : Option Bool
  currentValue : Option Value
  isResult : Option Bool
deriving DecidableEq, Repr

/-- `AppNode` (the fields of a React-Flow node that the engine reads). -/
structure AppNode where
  id : String
  data : NodeData
deriving DecidableEq, Repr

/-- `AppEdge` (the fields of a React-Flow edge that the engine reads). -/
structure AppEdge where
  id : String
  source : String
  target : String
deriving DecidableEq, Repr

/-- Abstraction of the JavaScript `RegExp` built-in: `valid p` is true iff
`new RegExp(p)` does not throw (this is independent of the flags used);
`test p l` is the result of `new RegExp(p, 'i').test(l)`; `replaceAll p r l`
is the result of `l.replace(new RegExp(p, 'g'), r)`. -/
structure RegexEngine where
  valid : String → Bool
  test : String → String → Bool
  replaceAll : String → String → String → String

/-- `FlowExecutionResult` of `types.ts`.  An edge-result entry holds
`none` when the JS code assigned `undefined` to the key. -/
structure FlowExecutionResult where
  nodeResults : List (String × Value)
  edgeResults : List (String × Option Value)
deriving DecidableEq, Repr

/-! ### JS-object (string-keyed record) operations -/

/-- Key lookup in a JS object modelled as an association list. -/
def lookupRec {α : Type} : List (String × α) → String → Option α
  | [], _ => none
  | p :: rest, k => if p.1 = k then some p.2 else lookupRec rest k

/-- JS assignment `m[k] = v`: overwrite the existing entry in place,
otherwise append a new entry (JS objects keep insertion order). -/
def setEntry {α : Type} : List (String × α) → String → α → List (String × α)
  | [], k, v => [(k, v)]
  | p :: rest, k, v => if p.1 = k then (k, v) :: rest else p :: setEntry rest k v

/-- Lookup with a default. -/
def lookupD {α : Type} (m : List (String × α)) (k : String) (dflt : α) : α :=
  (lookupRec m k).getD dflt

/-! ### JS string and array primitives, over character lists -/

/-- JS falsy-default for an optional string parameter: `o || dflt`
(the empty string is falsy). -/
def effString (o : Option String) (dflt : String) : String :=
  match o with
  | some s => if s = "" then dflt else s
  | none => dflt

/-- JS falsy-default for an optional numeric parameter: `o || dflt`
(`0` is falsy). -/
def effInt (o : Option Int) (dflt : Int) : Int :=
  match o with
  | some i => if i = 0 then dflt else i
  | none => dflt

/-- `o || ""` for an optional string (the result is `""` exactly when the
value is absent or already `""`). -/
def jsOrEmptyStr (o : Option String) : String := o.getD ""

/-- Accumulating worker for `String.prototype.split(/\r?\n/)`. -/
def splitLinesAux : List Char → List Char → List String
  | [], acc => [String.mk acc.reverse]
  | '\r' :: '\n' :: rest, acc => String.mk acc.reverse :: splitLinesAux rest []
  | '\n' :: rest, acc => String.mk acc.reverse :: splitLinesAux rest []
  | c :: rest, acc => splitLinesAux rest (c :: acc)

/-- `s.split(/\r?\n/)`: split on `\r\n` or `\n` (a lone `\r` is ordinary). -/
def splitLines (s : String) : List String := splitLinesAux s.data []

/-- Worker for `String.prototype.split(sep)` with a non-empty string
separator: greedy left-to-right, non-overlapping.  The fuel is at least
the length of the scanned list whenever called, so the fuel-exhausted
clause is unreachable. -/
def jsSplitAux (sep : List Char) : Nat → List Char → List Char → List (List Char)
  | _, [], acc => [acc]
  | 0, s, acc => [acc ++ s]
  | fuel+1, c :: rest, acc =>
    if sep.isPrefixOf (c :: rest) then
      acc :: jsSplitAux sep fuel ((c :: rest).drop sep.length) []
    else
      jsSplitAux sep fuel rest (acc ++ [c])

/-- `s.split(sep)` for a string separator, with the JS special case that an
empty separator splits into single characters (and `"".split("")` is `[]`). -/
def jsSplit (s sep : String) : List String :=
  if sep.data = [] then s.data.map (fun c => String.mk [c])
  else (jsSplitAux sep.data (s.data.length + 1) s.data []).map String.mk

/-- Character-list worker for `Array.prototype.join(sep)`. -/
def joinChars (sep : List Char) : List String → List Char
  | [] => []
  | [x] => x.data
  | x :: xs => x.data ++ sep ++ joinChars sep xs

/-- `xs.join(sep)`. -/
def jsJoin (sep : String) (xs : List String) : String := String.mk (joinChars sep.data xs)

/-- `String.prototype.includes(pat)`: contiguous substring test. -/
def jsIncludes (pat : List Char) : List Char → Bool
  | [] => pat.isPrefixOf []
  | c :: rest => if pat.isPrefixOf (c :: rest) then true else jsIncludes pat rest

/-- Worker for `Array.from(new Set(lines))`: keep first occurrences in order. -/
def jsUniqAux : List String → List String → List String
  | [], _ => []
  | x :: xs, seen => if x ∈ seen then jsUniqAux xs seen else x :: jsUniqAux xs (x :: seen)

/-- `Array.from(new Set(lines))`. -/
def jsUniq (l : List String) : List String := jsUniqAux l []

/-- Code-unit-wise lexicographic `≤` on strings (the default JS sort order),
as an executable Boolean on character lists. -/
def lexLe : List Char → List Char → Bool
  | [], _ => true
  | _ :: _, [] => false
  | a :: as, b :: bs => if a.val < b.val then true else if b.val < a.val then false else lexLe as bs

/-- Stable insertion of a string into a sorted list (equal elements keep
their original relative order). -/
def insertSorted (x : String) : List String → List String
  | [] => [x]
  | y :: ys => if lexLe y.data x.data then y :: insertSorted x ys else x :: y :: ys

/-- `[...lines].sort()`: a stable lexicographic sort of a fresh copy. -/
def jsSort (l : List String) : List String := l.foldr insertSorted []

/-- Clamp one `Array.prototype.slice` bound (negative values count from the
end, results are clamped into `[0, len]`). -/
def jsSliceBound (len : Nat) (i : Int) : Nat :=
  if i < 0 then ((len : Int) + i).toNat else min i.toNat len

/-- `l.slice(a, b)` with JS index semantics. -/
def jsSlice {α : Type} (l : List α) (a b : Int) : List α :=
  (l.take (jsSliceBound l.length b)).drop (jsSliceBound l.length a)

/-- `s.toUpperCase()` (modelled on the ASCII range, which is all the
engine's own tests of it exercise). -/
def jsToUpper (s : String) : String := String.mk (s.data.map Char.toUpper)

/-- `s.toLowerCase()` (ASCII range, as for `jsToUpper`). -/
def jsToLower (s : String) : String := String.mk (s.data.map Char.toLower)

/-! ### The batch operator (`processBatch`) -/

/-- Coerce the input of `processBatch` to a line list:
a string is split on line breaks with empty lines dropped
(`split(/\r?\n/).filter(Boolean)`), an array is kept
(its elements are already strings, so `map(String)` is the identity). -/
def toLinesBatch : Value → List String
  | .vstr s => (splitLines s).filter (fun l => l ≠ "")
  | .vlist xs => xs

/-- One descriptive chunk line of `processBatch`. -/
def batchLine (chunk : List String) : String :=
  "[Batch of " ++ toString chunk.length ++ "]: " ++ jsJoin ", " chunk

/-- The `for (let i = 0; i < lines.length; i += batchSize)` loop of
`processBatch`, with fuel.  `none` means the fuel ran out; with the fuel
used by `processBatch` this happens exactly when the JS loop runs forever
(a non-positive step with a non-empty line list). -/
def processBatchAux (lines : List String) (batchSize : Int) :
    Nat → Int → List String → Option (List String)
  | 0, _, _ => none
  | fuel+1, i, acc =>
    if i < (lines.length : Int) then
      processBatchAux lines batchSize fuel (i + batchSize)
        (acc ++ [batchLine (jsSlice lines i (i + batchSize))])
    else some acc

/-- `processBatch(input, batchSize)` of `flowEngine.ts`.  The caller passes
`node.data.params?.batchSize || 3` for `batchSize`. -/
def processBatch (input : Value) (batchSize : Int) : Option (List String) :=
  processBatchAux (toLinesBatch input) batchSize ((toLinesBatch input).length + 1) 0 []

/-! ### The transform library (`processData`) -/

/-- Coerce the input of `processData` to a line list: a raw string is
split on universal line breaks (without dropping empties), an array of
strings is kept as is (`map(String)` is the identity on strings). -/
def toLines : Value → List String
  | .vstr s => splitLines s
  | .vlist xs => xs

/-- `parts[i] || ''` for an integer index (negative or out of range gives
`undefined`, hence `''`; the fragments are non-empty so `|| ''` only
converts `undefined`). -/
def jsIndexOrEmpty (parts : List String) (i : Int) : String :=
  if i < 0 then "" else (parts.get? i.toNat).getD ""

/-- `processData(input, config)` of `flowEngine.ts`.  `E` abstracts the
JavaScript regular-expression built-in used by the grep and sed branches. -/
def processData (E : RegexEngine) (input : Value) (config : NodeData) : Value :=
  let params := config.params
  let lines := toLines input
  match config.processType with
  | none => .vlist lines
  | some pt =>
    match pt with
    | .SPLIT =>
      match input with
      | .vstr s => .vlist (jsSplit s (effString (params.bind Params.delimiter) ","))
      | _ => .vlist lines
    | .GREP =>
      let pattern := effString (params.bind Params.pattern) ""
      if E.valid pattern then .vlist (lines.filter (fun l => E.test pattern l))
      else .vlist (lines.filter (fun l => jsIncludes pattern.data l.data))
    | .REPLACE =>
      let search := effString (params.bind Params.pattern) ""
      let repl := effString (params.bind Params.replacement) ""
      if E.valid search then .vlist (lines.map (fun l => E.replaceAll search repl l))
      else .vlist (lines.map (fun l => jsJoin repl (jsSplit l search)))
    | .MAP =>
      let fieldIdx := effInt (params.bind Params.fieldIndex) 1 - 1
      let delimiter := effString (params.bind Params.delimiter) " "
      .vlist (lines.map (fun l =>
        jsIndexOrEmpty ((jsSplit l delimiter).filter (fun x => x ≠ "")) fieldIdx))
    | .SORT => .vlist (jsSort lines)
    | .UNIQ => .vlist (jsUniq lines)
    | .JOIN => .vstr (jsJoin (effString (params.bind Params.delimiter) "\n") lines)
    | .COUNT =>
      .vstr ("Lines: " ++ toString lines.length ++ "\nCharacters: " ++
        toString (joinChars [] lines).length)
    | .UPPER => .vlist (lines.map jsToUpper)
    | .LOWER => .vlist (lines.map jsToLower)

/-! ### The SEQUENCE matcher -/

/-- Flatten the incoming buffer to one string:
`Array.isArray(inputData) ? inputData.join('') : String(inputData)`. -/
def seqInputStr : Value → String
  | .vlist xs => String.mk (joinChars [] xs)
  | .vstr s => s

/-- `target[i]` as a character (only used under an `i < target.length` guard). -/
def charAtD (s : List Char) (i : Nat) : Char := (s.get? i).getD 'A'

/-- The SEQUENCE branch of `executeFlow` when the carried previous output
is a string `p` (which is what the engine itself ever stores for a
SEQUENCE node). -/
def runSequenceStr (targetPattern p : String) (input : Value) : Value :=
  if p.length < targetPattern.length then
    let needed := charAtD targetPattern.data p.length
    if (seqInputStr input).data.contains needed then .vstr (String.mk (p.data ++ [needed]))
    else .vstr p
  else .vstr p

/-- The SEQUENCE branch of `executeFlow`, lines 89-110 of the source.
`prevNodeResults[node.id] || ""` keeps an array value (arrays are truthy);
in that case `.length` is the array length, and `prevOutput +
nextCharNeeded` stringifies the array with commas. -/
def runSequence (targetPattern : String) (prevVal : Option Value) (input : Value) : Value :=
  match prevVal with
  | some (.vstr p) => runSequenceStr targetPattern p input
  | none => runSequenceStr targetPattern "" input
  | some (.vlist xs) =>
    if xs.length < targetPattern.length then
      let needed := charAtD targetPattern.data xs.length
      if (seqInputStr input).data.contains needed then
        .vstr (String.mk (joinChars [','] xs ++ [needed]))
      else .vlist xs
    else .vlist xs

/-! ### Fan-in aggregation -/

/-- `Array.isArray(i) ? i : [String(i)]` (stringifying a string is the identity). -/
def coerceToList : Value → List String
  | .vlist l => l
  | .vstr s => [s]

/-- Is the value an array? -/
def isArr : Value → Bool
  | .vlist _ => true
  | .vstr _ => false

/-- Lines 55-65 of `executeFlow`: one resolved input is used verbatim;
several are flattened (`inputs.flat()` when all are arrays, otherwise each
non-array is coerced to a one-element array first); none gives no input. -/
def aggregateInputs (inputs : List Value) : Option Value :=
  match inputs with
  | [] => none
  | [v] => some v
  | _ =>
    if inputs.all isArr then
      some (.vlist ((inputs.map coerceToList).flatten))
    else
      some (.vlist ((inputs.map coerceToList).flatten))

/-! ### The graph execution engine -/

/-- The ids of the node list, in order. -/
def idsOf (nodes : List AppNode) : List String := nodes.map AppNode.id

/-- The initial node-results record: every INPUT and EMITTER node is
seeded with `node.data.params?.pattern || ""` (lines 20-27). -/
def seedResults (nodes : List AppNode) : List (String × Value) :=
  nodes.foldl
    (fun m n =>
      if n.data.type = NodeType.INPUT ∨ n.data.type = NodeType.EMITTER then
        setEntry m n.id (.vstr (jsOrEmptyStr (n.data.params.bind Params.pattern)))
      else m)
    []

/-- The adjacency record (lines 20-22 and 29-32): one empty list per node,
then each edge whose source has an entry appends its target. -/
def initAdj (nodes : List AppNode) (edges : List AppEdge) : List (String × List String) :=
  edges.foldl
    (fun m e =>
      match lookupRec m e.source with
      | some l => setEntry m e.source (l ++ [e.target])
      | none => m)
    (nodes.foldl (fun m n => setEntry m n.id []) [])

/-- The in-degree record (lines 20-22 and 33): zero per node, then
`inDegree[edge.target] = (inDegree[edge.target] || 0) + 1` per edge
(dangling targets get entries too). -/
def initInDeg (nodes : List AppNode) (edges : List AppEdge) : List (String × Int) :=
  edges.foldl
    (fun m e => setEntry m e.target ((lookupRec m e.target).getD 0 + 1))
    (nodes.foldl (fun m n => setEntry m n.id 0) [])

/-- The initial queue (lines 37-39): ids of the nodes whose in-degree is 0,
in node-list order. -/
def initQueue (nodes : List AppNode) (edges : List AppEdge) : List String :=
  (nodes.filter (fun n => decide (lookupRec (initInDeg nodes edges) n.id = some 0))).map AppNode.id

/-- The state of the `while` loop of `executeFlow`.  `nodes`, `edges`,
`prevNodeResults` and `adjacency` are never modified after initialization;
`processed` is a ghost log of dequeued-and-found node ids that no other
component reads. -/
structure EngineState where
  nodes : List AppNode
  edges : List AppEdge
  prevNodeResults : List (String × Value)
  nodeResults : List (String × Value)
  edgeResults : List (String × Option Value)
  adjacency : List (String × List String)
  inDegree : List (String × Int)
  queue : List String
  processed : List String
deriving DecidableEq, Repr

/-- The state right before the loop. -/
def initState (nodes : List AppNode) (edges : List AppEdge)
    (prev : List (String × Value)) : EngineState :=
  ⟨nodes, edges, prev, seedResults nodes, [], initAdj nodes edges, initInDeg nodes edges,
    initQueue nodes edges, []⟩

/-- Lines 121-128: decrement the in-degree of every listed neighbour in
order, enqueueing each one whose counter reaches exactly 0.  An absent
counter is left alone (the JS code would store `NaN`, which never equals
0; this clause is unreachable because every adjacency target received an
in-degree entry at initialization). -/
def triggerNeighbors : List String → List (String × Int) → List String →
    List (String × Int) × List String
  | [], d, q => (d, q)
  | nb :: rest, d, q =>
    match lookupRec d nb with
    | some v =>
      if v - 1 = 0 then triggerNeighbors rest (setEntry d nb (v - 1)) (q ++ [nb])
      else triggerNeighbors rest (setEntry d nb (v - 1)) q
    | none => triggerNeighbors rest d q

/-- Lines 75-118: compute the dequeued node's output from its input value.
Only the BATCH branch can fail to produce a value, and only by divergence
of `processBatch` (propagated as `none`). -/
def dispatchNode (E : RegexEngine) (node : AppNode) (prev : List (String × Value))
    (inputData : Value) : Option Value :=
  if node.data.type = NodeType.PROCESS ∨ node.data.type = NodeType.BRANCH then
    some (processData E inputData
      { node.data with processType := some (node.data.processType.getD ProcessType.GREP) })
  else if node.data.type = NodeType.BATCH then
    (processBatch inputData (effInt (node.data.params.bind Params.batchSize) 3)).map Value.vlist
  else if node.data.type = NodeType.MERGE then some inputData
  else if node.data.type = NodeType.SEQUENCE then
    some (runSequence (jsOrEmptyStr (node.data.params.bind Params.pattern))
      (lookupRec prev node.id) inputData)
  else if node.data.type = NodeType.OUTPUT then some inputData
  else some inputData

/-- Line 48: the incoming edges of the dequeued node, in edge-list order. -/
def stepIncoming (s : EngineState) (nodeId : String) : List AppEdge :=
  s.edges.filter (fun e => e.target == nodeId)

/-- Line 53: the resolved inputs (current outputs of the incoming edges'
sources, skipping sources without an output), in edge-list order. -/
def stepInputs (s : EngineState) (nodeId : String) : List Value :=
  (stepIncoming s nodeId).filterMap (fun e => lookupRec s.nodeResults e.source)

/-- Lines 49-72: the input value of the dequeued node, if any. -/
def stepInputData (s : EngineState) (nodeId : String) (node : AppNode) : Option Value :=
  if (stepIncoming s nodeId).length > 0 then aggregateInputs (stepInputs s nodeId)
  else if node.data.type = NodeType.INPUT ∨ node.data.type = NodeType.EMITTER then
    lookupRec s.nodeResults node.id
  else none

/-- Lines 67-69: record every incoming edge's carried value. -/
def stepER (s : EngineState) (nodeId : String) : List (String × Option Value) :=
  (stepIncoming s nodeId).foldl
    (fun m e => setEntry m e.id (lookupRec s.nodeResults e.source)) s.edgeResults

/-- Lines 75-118: the node-results record after the dequeued node was
dispatched (unchanged when no input value was present; `none` when the
BATCH operator diverged). -/
def stepNR (E : RegexEngine) (s : EngineState) (nodeId : String) (node : AppNode) :
    Option (List (String × Value)) :=
  match stepInputData s nodeId node with
  | none => some s.nodeResults
  | some v => (dispatchNode E node s.prevNodeResults v).map
      (fun out => setEntry s.nodeResults nodeId out)

/-- Lines 47-128 for a dequeued id that names an existing node. -/
def stepProcess (E : RegexEngine) (s : EngineState) (nodeId : String) (rest : List String)
    (node : AppNode) : Option EngineState :=
  (stepNR E s nodeId node).map (fun nr2 =>
    { s with
      queue := (triggerNeighbors (lookupD s.adjacency nodeId []) s.inDegree rest).2
      inDegree := (triggerNeighbors (lookupD s.adjacency nodeId []) s.inDegree rest).1
      nodeResults := nr2
      edgeResults := stepER s nodeId
      processed := s.processed ++ [nodeId] })

/-- One iteration of the `while` loop (lines 41-129): dequeue an id; if no
node carries it, continue (line 45); otherwise aggregate the incoming
inputs, record the edge outputs, dispatch if an input value is present,
and trigger the neighbours.  `none` propagates divergence of the BATCH
operator. -/
def step (E : RegexEngine) (s : EngineState) : Option EngineState :=
  match s.queue with
  | [] => some s
  | nodeId :: rest =>
    match s.nodes.find? (fun n => n.id == nodeId) with
    | none => some { s with queue := rest }
    | some node => stepProcess E s nodeId rest node

/-- The fueled `while` loop.  `none` means the run did not complete within
the fuel (or a BATCH operator diverged). -/
def runLoop (E : RegexEngine) : Nat → EngineState → Option EngineState
  | 0, s => if s.queue = [] then some s else none
  | fuel+1, s =>
    match s.queue with
    | [] => some s
    | _ :: _ =>
      match step E s with
      | none => none
      | some s2 => runLoop E fuel s2

/-- `executeFlow(nodes, edges, prevNodeResults)` of `flowEngine.ts`.
The fuel `nodes.length + edges.length` is proved sufficient below, so
`none` occurs exactly when the JavaScript function fails to return. -/
def executeFlow (E : RegexEngine) (nodes : List AppNode) (edges : List AppEdge)
    (prevNodeResults : List (String × Value)) : Option FlowExecutionResult :=
  (runLoop E (nodes.length + edges.length) (initState nodes edges prevNodeResults)).map
    (fun s => ⟨s.nodeResults, s.edgeResults⟩)

/-! ### A concrete regex-engine instance (used to evaluate concrete runs) -/

/-- A degenerate `RegexEngine` in which no pattern is a valid regular
expression, so the grep/sed branches always take their literal fallback.
Concrete witness runs are evaluated with it. -/
def noRegex : RegexEngine := ⟨fun _ => false, fun _ _ => false, fun _ _ l => l⟩

/-! ### Association-list lemmas -/

theorem lookupRec_setEntry_self {α : Type} (m : List (String × α)) (k : String) (v : α) :
    lookupRec (setEntry m k v) k = some v := by
  induction m with
  | nil => simp [setEntry, lookupRec]
  | cons p rest ih =>
    by_cases h : p.1 = k
    · simp [setEntry, h, lookupRec]
    · simp [setEntry, h, lookupRec, ih]

theorem lookupRec_setEntry_ne {α : Type} (m : List (String × α)) (k k' : String) (v : α)
    (h : k' ≠ k) : lookupRec (setEntry m k v) k' = lookupRec m k' := by
  have hk : k ≠ k' := Ne.symm h
  induction m with
  | nil => simp [setEntry, lookupRec, hk]
  | cons p rest ih =>
    by_cases hp : p.1 = k
    · subst hp
      simp only [setEntry, if_pos rfl, lookupRec]
      rw [if_neg hk, if_neg hk]
    · simp only [setEntry, if_neg hp, lookupRec]
      by_cases hpk : p.1 = k'
      · simp [hpk]
      · simp [hpk, ih]

theorem keys_setEntry_mem {α : Type} (m : List (String × α)) (k : String) (v : α)
    (h : k ∈ m.map Prod.fst) : (setEntry m k v).map Prod.fst = m.map Prod.fst := by
  induction m with
  | nil => simp at h
  | cons p rest ih =>
    by_cases hp : p.1 = k
    · simp [setEntry, hp]
    · simp only [List.map_cons, List.mem_cons] at h
      rcases h with h | h
    
      · exact absurd h.symm hp
      · simp [setEntry, hp, ih h]

theorem keys_setEntry_not_mem {α : Type} (m : List (String × α)) (k : String) (v : α)
    (h : k ∉ m.map Prod.fst) : (setEntry m k v).map Prod.fst = m.map Prod.fst ++ [k] := by
  induction m with
  | nil => simp [setEntry]
  | cons p rest ih =>
    simp only [List.map_cons, List.mem_cons] at h
    push_neg at h
    simp [setEntry, Ne.symm h.1, ih h.2]

theorem nodupKeys_setEntry {α : Type} (m : List (String × α)) (k : String) (v : α)
    (h : (m.map Prod.fst).Nodup) : ((setEntry m k v).map Prod.fst).Nodup := by
  by_cases hk : k ∈ m.map Prod.fst
  · rw [keys_setEntry_mem m k v hk]; exact h
  · rw [keys_setEntry_not_mem m k v hk]
    refine List.Nodup.append h (by simp) ?_
    intro a ha hb
    simp only [List.mem_singleton] at hb
    exact hk (hb ▸ ha)

theorem lookupRec_eq_none_of_not_mem {α : Type} (m : List (String × α)) (k : String)
    (h : k ∉ m.map Prod.fst) : lookupRec m k = none := by
  induction m with
  | nil => rfl
  | cons p rest ih =>
    simp only [List.map_cons, List.mem_cons] at h
    push_neg at h
    simp [lookupRec, Ne.symm h.1, ih h.2]

theorem lookupRec_isSome_iff_mem {α : Type} (m : List (String × α)) (k : String) :
    (lookupRec m k).isSome = true ↔ k ∈ m.map Prod.fst := by
  induction m with
  | nil => simp [lookupRec]
  | cons p rest ih =>
    by_cases hp : p.1 = k
    · simp [lookupRec, hp]
    · simp [lookupRec, hp, ih, Ne.symm hp]

/-! ### Frame preservation (claim C8) -/

theorem stepProcess_frame (E : RegexEngine) (s s' : EngineState) (nodeId : String)
    (rest : List String) (node : AppNode) (h : stepProcess E s nodeId rest node = some s') :
    s'.nodes = s.nodes ∧ s'.edges = s.edges ∧ s'.prevNodeResults = s.prevNodeResults ∧
      s'.adjacency = s.adjacency := by
  unfold stepProcess at h
  rcases Option.map_eq_some'.mp h with ⟨nr2, _, h2⟩
  subst h2
  exact ⟨rfl, rfl, rfl, rfl⟩

theorem step_frame (E : RegexEngine) (s s' : EngineState) (h : step E s = some s') :
    s'.nodes = s.nodes ∧ s'.edges = s.edges ∧ s'.prevNodeResults = s.prevNodeResults ∧
      s'.adjacency = s.adjacency := by
  unfold step at h
  split at h
  · cases h; exact ⟨rfl, rfl, rfl, rfl⟩
  · split at h
    · cases h; exact ⟨rfl, rfl, rfl, rfl⟩
    · exact stepProcess_frame E s s' _ _ _ h

theorem runLoop_frame (E : RegexEngine) (fuel : Nat) (s s' : EngineState)
    (h : runLoop E fuel s = some s') :
    s'.nodes = s.nodes ∧ s'.edges = s.edges ∧ s'.prevNodeResults = s.prevNodeResults ∧
      s'.adjacency = s.adjacency := by
  induction fuel generalizing s with
  | zero =>
    unfold runLoop at h
    split at h
    · cases h; exact ⟨rfl, rfl, rfl, rfl⟩
    · cases h
  | succ n ih =>
    unfold runLoop at h
    split at h
    · cases h; exact ⟨rfl, rfl, rfl, rfl⟩
    · revert h
      cases hs : step E s with
      | none => intro h; cases h
      | some s2 =>
        intro h
        obtain ⟨h1, h2, h3, h4⟩ := ih s2 h
        obtain ⟨g1, g2, g3, g4⟩ := step_frame E s s2 hs
        exact ⟨h1.trans g1, h2.trans g2, h3.trans g3, h4.trans g4⟩

/-! ### Concrete fixtures used by witnesses and counterexamples -/

/-- A parameter record holding only a pattern. -/
def fxParams (pat : Option String) : Params := ⟨pat, none, none, none, none⟩

/-- A static source (INPUT) node with the given seeded text. -/
def fxInput (i txt : String) : AppNode :=
  ⟨i, ⟨"src", NodeType.INPUT, none, some (fxParams (some txt)), none, none, none⟩⟩

/-- A PROCESS node with the given operation and pattern. -/
def fxProcess (i : String) (pt : ProcessType) (pat : Option String) : AppNode :=
  ⟨i, ⟨"proc", NodeType.PROCESS, some pt, some (fxParams pat), none, none, none⟩⟩

/-- An OUTPUT (sink) node. -/
def fxOutput (i : String) : AppNode :=
  ⟨i, ⟨"out", NodeType.OUTPUT, none, none, none, none, none⟩⟩

/-- A SEQUENCE node with the given target pattern. -/
def fxSeq (i pat : String) : AppNode :=
  ⟨i, ⟨"seq", NodeType.SEQUENCE, none, some (fxParams (some pat)), none, none, none⟩⟩

/-- A BATCH node with the given configured batch size. -/
def fxBatch (i : String) (bs : Int) : AppNode :=
  ⟨i, ⟨"batch", NodeType.BATCH, none, some ⟨none, none, none, none, some bs⟩, none, none, none⟩⟩

/-- An edge. -/
def fxEdge (i a b : String) : AppEdge := ⟨i, a, b⟩

/-! ### Claim C8: the engine does not mutate its arguments -/

/-- C8: one `executeFlow` call leaves the node list, the edge list and the
previous-output map exactly as they were; the only values produced are the
freshly built node-output and edge-output maps.  The loop is modelled as
explicit state passing in which `nodes`, `edges` and `prevNodeResults` are
part of the state (mirroring the heap of the JS run), and the theorem says
the final state carries them unchanged, while `executeFlow` returns only
the two freshly built maps of that final state. -/
theorem C8_engine_frame (E : RegexEngine) (nodes : List AppNode) (edges : List AppEdge)
    (prev : List (String × Value)) (s' : EngineState)
    (h : runLoop E (nodes.length + edges.length) (initState nodes edges prev) = some s') :
    s'.nodes = nodes ∧ s'.edges = edges ∧ s'.prevNodeResults = prev ∧
      executeFlow E nodes edges prev = some ⟨s'.nodeResults, s'.edgeResults⟩ := by
  obtain ⟨h1, h2, h3, _⟩ := runLoop_frame E (nodes.length + edges.length) _ s' h
  refine ⟨h1, h2, h3, ?_⟩
  unfold executeFlow
  rw [h]
  rfl

/-- Witness for C8 at a concrete one-node graph. -/
theorem C8_engine_frame_witness :
    (runLoop noRegex ([fxInput "a" "x"].length + ([] : List AppEdge).length)
        (initState [fxInput "a" "x"] [] [])).map EngineState.nodes = some [fxInput "a" "x"] := by
  cases hr : runLoop noRegex ([fxInput "a" "x"].length + ([] : List AppEdge).length)
      (initState [fxInput "a" "x"] [] []) with
  | none => exact absurd hr (by decide)
  | some s' =>
    have hh := (C8_engine_frame noRegex [fxInput "a" "x"] [] [] s' hr).1
    simp [hh]

/-! ### Claim C4: fan-in aggregation -/

/-- C4: when a dequeued node has resolved inputs (outputs of its incoming
edges' sources, in edge-iteration order), a single input is used verbatim,
and two or more inputs are flattened into one sequence after coercing each
non-sequence to the one-element sequence of its string form
(`coerceToList`; on sequences this is the identity, so an all-sequence
fan-in is plain concatenation in edge order); in particular `["a","b"]`
with `["c"]` gives `["a","b","c"]` and `["a"]` with `"x"` gives
`["a","x"]`.  `aggregateInputs` is exactly the aggregation the engine's
`step` applies to the resolved inputs `stepInputs`. -/
theorem C4_fanin_aggregation :
    (∀ v : Value, aggregateInputs [v] = some v) ∧
    (∀ inputs : List Value, 2 ≤ inputs.length →
      aggregateInputs inputs = some (.vlist ((inputs.map coerceToList).flatten))) ∧
    aggregateInputs [.vlist ["a", "b"], .vlist ["c"]] = some (.vlist ["a", "b", "c"]) ∧
    aggregateInputs [.vlist ["a"], .vstr "x"] = some (.vlist ["a", "x"]) := by
  refine ⟨fun v => rfl, ?_, by decide, by decide⟩
  intro inputs h
  match inputs with
  | [] => simp at h
  | [v] => simp at h
  | a :: b :: r =>
    show aggregateInputs (a :: b :: r) = _
    unfold aggregateInputs
    rw [ite_self]

/-- Witness for C4 at a concrete two-input fan-in. -/
theorem C4_fanin_aggregation_witness :
    aggregateInputs [Value.vstr "p", Value.vstr "q"] = some (.vlist ["p", "q"]) := by
  have h := C4_fanin_aggregation.2.1 [Value.vstr "p", Value.vstr "q"] (by decide)
  simpa using h

/-! ### Claim C6: grep/sed regex fallback -/

/-- `x || ""` agrees with `effString x ""`. -/
theorem effString_empty (o : Option String) : effString o "" = jsOrEmptyStr o := by
  cases o with
  | none => rfl
  | some s =>
    by_cases h : s = ""
    · simp [effString, jsOrEmptyStr, h]
    · simp [effString, jsOrEmptyStr, h]

/-- C6: the filter (grep) and substitute (sed) operations are total for
every input and configured pattern.  When the effective pattern (the
configured one, `""` if absent) is a valid regular expression, grep keeps
exactly the lines accepted by the case-insensitive regex test and sed
maps every line through the global regex replacement; when it is not
valid, grep falls back to a literal substring containment test and sed to
literal split-and-join replacement.  The regex built-in itself is
abstracted by `E`. -/
theorem C6_regex_fallback (E : RegexEngine) (d : NodeData) (input : Value) :
    (d.processType = some ProcessType.GREP →
      (E.valid (jsOrEmptyStr (d.params.bind Params.pattern)) = true →
        processData E input d = .vlist ((toLines input).filter
          (fun l => E.test (jsOrEmptyStr (d.params.bind Params.pattern)) l))) ∧
      (E.valid (jsOrEmptyStr (d.params.bind Params.pattern)) = false →
        processData E input d = .vlist ((toLines input).filter
          (fun l => jsIncludes (jsOrEmptyStr (d.params.bind Params.pattern)).data l.data)))) ∧
    (d.processType = some ProcessType.REPLACE →
      (E.valid (jsOrEmptyStr (d.params.bind Params.pattern)) = true →
        processData E input d = .vlist ((toLines input).map
          (fun l => E.replaceAll (jsOrEmptyStr (d.params.bind Params.pattern))
            (jsOrEmptyStr (d.params.bind Params.replacement)) l))) ∧
      (E.valid (jsOrEmptyStr (d.params.bind Params.pattern)) = false →
        processData E input d = .vlist ((toLines input).map
          (fun l => jsJoin (jsOrEmptyStr (d.params.bind Params.replacement))
            (jsSplit l (jsOrEmptyStr (d.params.bind Params.pattern))))))) := by
  obtain ⟨label, ty, pt, params, ia, cv, ir⟩ := d
  constructor
  · intro hpt
    simp only at hpt
    subst hpt
    constructor
    · intro hv
      simp [processData, effString_empty, hv]
    · intro hv
      simp [processData, effString_empty, hv]
  · intro hpt
    simp only at hpt
    subst hpt
    constructor
    · intro hv
      simp [processData, effString_empty, hv]
    · intro hv
      simp [processData, effString_empty, hv]

/-- Witness for C6: grep with an invalid pattern (under `noRegex`,
every pattern is invalid) keeps exactly the lines containing it. -/
theorem C6_regex_fallback_witness :
    processData noRegex (.vstr "ERROR 1\nINFO 2\nERROR 3")
        ⟨"g", NodeType.PROCESS, some ProcessType.GREP, some (fxParams (some "ERROR")),
          none, none, none⟩ =
      .vlist ["ERROR 1", "ERROR 3"] := by
  have h := ((C6_regex_fallback noRegex
    ⟨"g", NodeType.PROCESS, some ProcessType.GREP, some (fxParams (some "ERROR")),
      none, none, none⟩ (.vstr "ERROR 1\nINFO 2\nERROR 3")).1 rfl).2 rfl
  rw [h]
  decide

/-! ### Claim C9: extract-field (awk) -/

/-- Spec-side description of one extract-field application, following the
amended claim: split the line by the configured delimiter (an absent or
empty delimiter defaults to a single space), drop empty fragments, and
return the field at the configured 1-based index (an absent or zero index
defaults to 1) when such a field exists, the empty string otherwise. -/
def specExtractField (delimiter : Option String) (fieldIndex : Option Int) (l : String) :
    String :=
  let d := effString delimiter " "
  let idx := effInt fieldIndex 1
  let parts := (jsSplit l d).filter (fun x => x ≠ "")
  if 1 ≤ idx ∧ idx ≤ (parts.length : Int) then parts.getD (idx - 1).toNat "" else ""

/-- `parts[idx-1] || ''` coincides with the spec-side bounded field access. -/
theorem jsIndexOrEmpty_spec (parts : List String) (idx : Int) :
    jsIndexOrEmpty parts (idx - 1) =
      if 1 ≤ idx ∧ idx ≤ (parts.length : Int) then parts.getD (idx - 1).toNat "" else "" := by
  by_cases h1 : 1 ≤ idx
  · have h0 : ¬ (idx - 1 < 0) := by omega
    by_cases h2 : idx ≤ (parts.length : Int)
    · rw [jsIndexOrEmpty, if_neg h0, if_pos ⟨h1, h2⟩]
      rfl
    · rw [jsIndexOrEmpty, if_neg h0, if_neg (by exact fun hc => h2 hc.2)]
      have hlen : parts.length ≤ (idx - 1).toNat := by omega
      rw [List.get?_eq_none.mpr hlen]
      rfl
  · have h0 : idx - 1 < 0 := by omega
    rw [jsIndexOrEmpty, if_pos h0, if_neg (by exact fun hc => h1 hc.1)]

/-- C9 (amended): the extract-field (awk) operation maps every line to
`specExtractField`: split by the configured delimiter (absent or empty
delimiter defaults to one space), drop empty fragments, take the field at
the configured 1-based index, where an absent or zero index defaults to
1, and return the empty string when no field exists at that position
(in particular for negative indices). -/
theorem C9_extract_field (E : RegexEngine) (d : NodeData) (input : Value)
    (h : d.processType = some ProcessType.MAP) :
    processData E input d =
      .vlist ((toLines input).map
        (specExtractField (d.params.bind Params.delimiter) (d.params.bind Params.fieldIndex))) := by
  obtain ⟨label, ty, pt, params, ia, cv, ir⟩ := d
  simp only at h
  subst h
  simp only [processData]
  congr 1
  refine List.map_congr_left ?_
  intro l _
  simpa only [specExtractField] using
    jsIndexOrEmpty_spec ((jsSplit l (effString (params.bind Params.delimiter) " ")).filter
      (fun x => x ≠ "")) (effInt (params.bind Params.fieldIndex) 1)

/-- Witness for C9 on a concrete line with field index 2. -/
theorem C9_extract_field_witness :
    processData noRegex (.vstr "x y z")
        ⟨"m", NodeType.PROCESS, some ProcessType.MAP, some ⟨none, none, none, some 2, none⟩,
          none, none, none⟩ =
      .vlist ["y"] := by
  rw [C9_extract_field noRegex
    ⟨"m", NodeType.PROCESS, some ProcessType.MAP, some ⟨none, none, none, some 2, none⟩,
      none, none, none⟩ (.vstr "x y z") rfl]
  decide

/-- C9 counterexample: with a configured `fieldIndex` of 0 — a 1-based
index at which no field exists, so the claim as stated demands the empty
string — the code's falsy defaulting `(params?.fieldIndex || 1)` silently
uses field 1 instead: on the line `"a b"` it returns `"a"`, not `""`. -/
theorem C9_counterexample :
    processData noRegex (.vstr "a b")
        ⟨"m", NodeType.PROCESS, some ProcessType.MAP, some ⟨none, none, none, some 0, none⟩,
          none, none, none⟩ =
      .vlist ["a"] ∧ "a" ≠ ("" : String) := by
  exact ⟨by decide, by decide⟩

/-! ### Claim C7: join-then-split round trip -/

theorem jsSplitAux_fuel (sep : List Char) (hsep : sep ≠ []) :
    ∀ (f1 : Nat) (s acc : List Char) (f2 : Nat), s.length ≤ f1 → s.length ≤ f2 →
      jsSplitAux sep f1 s acc = jsSplitAux sep f2 s acc := by
  have hsl : 1 ≤ sep.length := by
    cases sep with
    | nil => exact absurd rfl hsep
    | cons _ _ => simp
  intro f1
  induction f1 with
  | zero =>
    intro s acc f2 h1 _
    have hs : s = [] := List.length_eq_zero.mp (Nat.le_zero.mp h1)
    subst hs
    cases f2 <;> rfl
  | succ g ih =>
    intro s acc f2 h1 h2
    cases s with
    | nil => cases f2 <;> rfl
    | cons c rest =>
      cases f2 with
      | zero => simp at h2
      | succ g2 =>
        have hlen : ((c :: rest).drop sep.length).length ≤ g := by
          simp only [List.length_drop, List.length_cons] at h1 ⊢
          generalize sep.length = sl at hsl ⊢
          omega
        have hlen2 : ((c :: rest).drop sep.length).length ≤ g2 := by
          simp only [List.length_drop, List.length_cons] at h2 ⊢
          generalize sep.length = sl at hsl ⊢
          omega
        simp only [jsSplitAux]
        cases hpre : sep.isPrefixOf (c :: rest)
        · simp only [Bool.false_eq_true, if_false]
          exact ih rest (acc ++ [c]) g2 (by simpa using h1) (by simpa using h2)
        · simp only [if_true]
          exact congrArg (acc :: ·) (ih _ _ g2 hlen hlen2)

theorem jsSplitAux_scan (d : Char) :
    ∀ (x : List Char), d ∉ x →
      ∀ (f : Nat) (s acc : List Char), x.length ≤ f →
        jsSplitAux [d] f (x ++ s) acc = jsSplitAux [d] (f - x.length) s (acc ++ x) := by
  intro x
  induction x with
  | nil => intro _ f s acc _; simp
  | cons c xt ih =>
    intro hx f s acc hf
    simp only [List.mem_cons, not_or] at hx
    cases f with
    | zero => simp at hf
    | succ g =>
      have hpre : [d].isPrefixOf (c :: (xt ++ s)) = false := by
        simp [List.isPrefixOf, hx.1]
      calc jsSplitAux [d] (g + 1) ((c :: xt) ++ s) acc
          = jsSplitAux [d] g (xt ++ s) (acc ++ [c]) := by
            rw [List.cons_append]
            simp [jsSplitAux, hpre]
        _ = jsSplitAux [d] (g - xt.length) s (acc ++ [c] ++ xt) :=
            ih hx.2 g s (acc ++ [c]) (by simpa using hf)
        _ = jsSplitAux [d] (g + 1 - (c :: xt).length) s (acc ++ (c :: xt)) := by
            have h1 : g - xt.length = g + 1 - (c :: xt).length := by
              simp only [List.length_cons]
              omega
            have h2 : acc ++ [c] ++ xt = acc ++ (c :: xt) := by simp
            rw [h1, h2]

theorem strEta (s : String) : String.mk s.data = s := rfl

theorem jsSplitAux_joinChars (d : Char) :
    ∀ (xs : List String), xs ≠ [] → (∀ x ∈ xs, d ∉ x.data) →
      ∀ f, (joinChars [d] xs).length ≤ f →
        jsSplitAux [d] f (joinChars [d] xs) [] = xs.map String.data := by
  intro xs
  induction xs with
  | nil => intro h; exact absurd rfl h
  | cons x tail ih =>
    intro _ hfree f hf
    cases tail with
    | nil =>
      have hx : d ∉ x.data := hfree x (by simp)
      have hjoin : joinChars [d] [x] = x.data := rfl
      rw [hjoin] at hf ⊢
      calc jsSplitAux [d] f x.data []
          = jsSplitAux [d] f (x.data ++ []) [] := by simp
        _ = jsSplitAux [d] (f - x.data.length) [] ([] ++ x.data) :=
            jsSplitAux_scan d x.data hx f [] [] hf
        _ = [x.data] := by simp [jsSplitAux]
    | cons y rest =>
      have hx : d ∉ x.data := hfree x (by simp)
      have hjoin : joinChars [d] (x :: y :: rest) = x.data ++ ([d] ++ joinChars [d] (y :: rest)) := by
        simp [joinChars]
      rw [hjoin] at hf ⊢
      set J := joinChars [d] (y :: rest) with hJ
      have hlenf : x.data.length ≤ f := by
        simp only [List.length_append, List.length_cons] at hf
        omega
      rw [jsSplitAux_scan d x.data hx f ([d] ++ J) [] hlenf]
      have hrem : ([d] ++ J).length ≤ f - x.data.length := by
        simp only [List.length_append, List.length_cons] at hf ⊢
        omega
      rw [jsSplitAux_fuel [d] (by simp) (f - x.data.length) ([d] ++ J) ([] ++ x.data)
        (J.length + 2) hrem (by simp)]
      have hstep : jsSplitAux [d] (J.length + 2) ([d] ++ J) ([] ++ x.data) =
          ([] ++ x.data) :: jsSplitAux [d] (J.length + 1) J [] := by
        show jsSplitAux [d] ((J.length + 1) + 1) (d :: J) ([] ++ x.data) = _
        simp [jsSplitAux, List.isPrefixOf]
      rw [hstep]
      rw [ih (by simp) (fun z hz => hfree z (by simp [hz])) (J.length + 1) (by simp)]
      simp

/-- C7 (amended): joining a non-empty line sequence with a one-character
delimiter that no line contains, then splitting by that same delimiter,
restores the original sequence. -/
theorem C7_join_split_roundtrip (E : RegexEngine) (c : Char) (xs : List String)
    (hne : xs ≠ []) (hfree : ∀ x ∈ xs, c ∉ x.data) :
    processData E
        (processData E (.vlist xs)
          ⟨"j", NodeType.PROCESS, some ProcessType.JOIN,
            some ⟨none, none, some (String.mk [c]), none, none⟩, none, none, none⟩)
        ⟨"s", NodeType.PROCESS, some ProcessType.SPLIT,
          some ⟨none, none, some (String.mk [c]), none, none⟩, none, none, none⟩ =
      .vlist xs := by
  have hdelim : (String.mk [c]) ≠ "" := by
    intro h
    have := congrArg String.data h
    simp at this
  have hbind : ((some (⟨none, none, some (String.mk [c]), none, none⟩ : Params)).bind
      Params.delimiter) = some (String.mk [c]) := rfl
  have heff : ∀ dflt, effString (some (String.mk [c])) dflt = String.mk [c] := by
    intro dflt
    simp [effString, hdelim]
  have hjoin : processData E (.vlist xs)
      ⟨"j", NodeType.PROCESS, some ProcessType.JOIN,
        some ⟨none, none, some (String.mk [c]), none, none⟩, none, none, none⟩ =
      .vstr (jsJoin (String.mk [c]) xs) := by
    simp only [processData, toLines, hbind, heff]
  rw [hjoin]
  have hsplitv : processData E (.vstr (jsJoin (String.mk [c]) xs))
      ⟨"s", NodeType.PROCESS, some ProcessType.SPLIT,
        some ⟨none, none, some (String.mk [c]), none, none⟩, none, none, none⟩ =
      .vlist (jsSplit (jsJoin (String.mk [c]) xs) (String.mk [c])) := by
    simp only [processData, hbind, heff]
  rw [hsplitv]
  have hsepne : ¬ ((String.mk [c]).data = []) := by simp
  rw [jsSplit, if_neg hsepne]
  have hdata : (jsJoin (String.mk [c]) xs).data = joinChars [c] xs := rfl
  have hsepc : (String.mk [c]).data = [c] := rfl
  rw [hsepc, hdata]
  rw [jsSplitAux_joinChars c xs hne hfree ((joinChars [c] xs).length + 1) (by omega)]
  simp only [List.map_map]
  have hid : (String.mk ∘ String.data) = id := funext (fun s => strEta s)
  rw [hid, List.map_id]

/-- Witness for C7: joining `["u","v"]` with `","` and splitting again
restores `["u","v"]`. -/
theorem C7_join_split_roundtrip_witness :
    processData noRegex
        (processData noRegex (.vlist ["u", "v"])
          ⟨"j", NodeType.PROCESS, some ProcessType.JOIN,
            some ⟨none, none, some (String.mk [',']), none, none⟩, none, none, none⟩)
        ⟨"s", NodeType.PROCESS, some ProcessType.SPLIT,
          some ⟨none, none, some (String.mk [',']), none, none⟩, none, none, none⟩ =
      .vlist ["u", "v"] :=
  C7_join_split_roundtrip noRegex ',' ["u", "v"] (by decide) (by decide)

/-- C7 counterexample: the round trip fails as stated, in two ways neither
of which breaches the claim's stated hypothesis "no line contains the
delimiter": (a) the empty sequence joins to `""`, which splits back to
`[""]`, not `[]`; (b) with the two-character delimiter `"aa"`, the lines
`["a","b"]` (neither of which contains `"aa"`) join to `"aaab"`, which
splits back to `["","ab"]`. -/
theorem C7_counterexample :
    processData noRegex
        (processData noRegex (.vlist ([] : List String))
          ⟨"j", NodeType.PROCESS, some ProcessType.JOIN,
            some ⟨none, none, some ",", none, none⟩, none, none, none⟩)
        ⟨"s", NodeType.PROCESS, some ProcessType.SPLIT,
          some ⟨none, none, some ",", none, none⟩, none, none, none⟩ =
      .vlist [""] ∧
    (Value.vlist [""] ≠ .vlist []) ∧
    (["a", "b"].all (fun x => !(jsIncludes "aa".data x.data)) = true) ∧
    processData noRegex
        (processData noRegex (.vlist ["a", "b"])
          ⟨"j", NodeType.PROCESS, some ProcessType.JOIN,
            some ⟨none, none, some "aa", none, none⟩, none, none, none⟩)
        ⟨"s", NodeType.PROCESS, some ProcessType.SPLIT,
          some ⟨none, none, some "aa", none, none⟩, none, none, none⟩ =
      .vlist ["", "ab"] ∧
    (Value.vlist ["", "ab"] ≠ .vlist ["a", "b"]) := by
  refine ⟨by decide, by decide, by decide, by decide, by decide⟩

/-! ### Claim C2: termination -/

/-- The batch sizes under which `processBatch` terminates: absent or zero
(both default to 3) or at least 1.  Equivalently, the effective step of
the batch loop is positive. -/
def GoodBatchSizes (nodes : List AppNode) : Prop :=
  ∀ n ∈ nodes, n.data.type = NodeType.BATCH →
    1 ≤ effInt (n.data.params.bind Params.batchSize) 3

theorem processBatchAux_some (lines : List String) (b : Int) (hb : 1 ≤ b) :
    ∀ (fuel : Nat) (i : Int) (acc : List String), (lines.length : Int) < i + fuel → 1 ≤ fuel →
      ∃ r, processBatchAux lines b fuel i acc = some r := by
  intro fuel
  induction fuel with
  | zero => intro i acc _ h1; simp at h1
  | succ g ih =>
    intro i acc hlt _
    by_cases hi : i < (lines.length : Int)
    · have hg1 : 1 ≤ g := by
        by_contra hg
        have : g = 0 := by omega
        subst this
        simp at hlt
        omega
      obtain ⟨r, hr⟩ := ih (i + b) (acc ++ [batchLine (jsSlice lines i (i + b))])
        (by push_cast at hlt ⊢; omega) hg1
      exact ⟨r, by rw [processBatchAux, if_pos hi]; exact hr⟩
    · exact ⟨acc, by rw [processBatchAux, if_neg hi]⟩

theorem processBatch_some (input : Value) (b : Int) (hb : 1 ≤ b) :
    ∃ r, processBatch input b = some r := by
  unfold processBatch
  exact processBatchAux_some (toLinesBatch input) b hb ((toLinesBatch input).length + 1) 0 []
    (by push_cast; omega) (by omega)

theorem dispatchNode_some (E : RegexEngine) (node : AppNode) (prev : List (String × Value))
    (v : Value) (hb : node.data.type = NodeType.BATCH →
      1 ≤ effInt (node.data.params.bind Params.batchSize) 3) :
    ∃ out, dispatchNode E node prev v = some out := by
  unfold dispatchNode
  split
  · exact ⟨_, rfl⟩
  · rename_i hba
    split
    · rename_i hbty
      obtain ⟨r, hr⟩ := processBatch_some v _ (hb hbty)
      exact ⟨.vlist r, by rw [hr]; rfl⟩
    · split
      · exact ⟨_, rfl⟩
      · split
        · exact ⟨_, rfl⟩
        · split
          · exact ⟨_, rfl⟩
          · exact ⟨_, rfl⟩

theorem stepNR_some (E : RegexEngine) (s : EngineState) (nodeId : String) (node : AppNode)
    (hb : node.data.type = NodeType.BATCH →
      1 ≤ effInt (node.data.params.bind Params.batchSize) 3) :
    ∃ nr2, stepNR E s nodeId node = some nr2 := by
  unfold stepNR
  split
  · exact ⟨_, rfl⟩
  · rename_i v _
    obtain ⟨out, hout⟩ := dispatchNode_some E node s.prevNodeResults v hb
    exact ⟨setEntry s.nodeResults nodeId out, by rw [hout]; rfl⟩

theorem step_some (E : RegexEngine) (s : EngineState) (_hq : s.queue ≠ [])
    (hg : GoodBatchSizes s.nodes) : ∃ s', step E s = some s' := by
  unfold step
  split
  · exact ⟨s, rfl⟩
  · rename_i nodeId rest _
    cases hfind : s.nodes.find? (fun n => n.id == nodeId) with
    | none => exact ⟨{ s with queue := rest }, rfl⟩
    | some node =>
      have hmem : node ∈ s.nodes := List.mem_of_find?_eq_some hfind
      obtain ⟨nr2, hnr⟩ := stepNR_some E s nodeId node (hg node hmem)
      refine ⟨{ s with
          queue := (triggerNeighbors (lookupD s.adjacency nodeId []) s.inDegree rest).2
          inDegree := (triggerNeighbors (lookupD s.adjacency nodeId []) s.inDegree rest).1
          nodeResults := nr2
          edgeResults := stepER s nodeId
          processed := s.processed ++ [nodeId] }, ?_⟩
      dsimp only
      unfold stepProcess
      rw [hnr]
      rfl

/-- Sum of the positive parts of an in-degree record. -/
def sumPos (m : List (String × Int)) : Nat := (m.map (fun p => p.2.toNat)).sum

theorem setEntry_eq_append {α : Type} (m : List (String × α)) (k : String) (v : α)
    (h : lookupRec m k = none) : setEntry m k v = m ++ [(k, v)] := by
  induction m with
  | nil => rfl
  | cons p rest ih =>
    simp only [lookupRec] at h
    by_cases hp : p.1 = k
    · rw [if_pos hp] at h; cases h
    · rw [if_neg hp] at h
      simp [setEntry, hp, ih h]

theorem sumPos_setEntry (m : List (String × Int)) (k : String) (v w : Int)
    (h : lookupRec m k = some v) :
    sumPos (setEntry m k w) + v.toNat = sumPos m + w.toNat := by
  induction m with
  | nil => cases h
  | cons p rest ih =>
    simp only [lookupRec] at h
    by_cases hp : p.1 = k
    · rw [if_pos hp] at h
      cases h
      simp only [setEntry, if_pos hp, sumPos, List.map_cons, List.sum_cons]
      omega
    · rw [if_neg hp] at h
      have := ih h
      simp only [setEntry, if_neg hp, sumPos, List.map_cons, List.sum_cons] at this ⊢
      omega

theorem triggerNeighbors_phi (A : List String) :
    ∀ (d : List (String × Int)) (q : List String),
      (triggerNeighbors A d q).2.length + sumPos (triggerNeighbors A d q).1 ≤
        q.length + sumPos d := by
  induction A with
  | nil => intro d q; simp [triggerNeighbors]
  | cons nb rest ih =>
    intro d q
    cases hl : lookupRec d nb with
    | none =>
      simp only [triggerNeighbors, hl]
      exact ih d q
    | some v =>
      simp only [triggerNeighbors, hl]
      by_cases hz : v - 1 = 0
      · rw [if_pos hz]
        have hsum := sumPos_setEntry d nb v (v - 1) hl
        have := ih (setEntry d nb (v - 1)) (q ++ [nb])
        simp only [List.length_append, List.length_cons, List.length_nil] at this ⊢
        omega
      · rw [if_neg hz]
        have hsum := sumPos_setEntry d nb v (v - 1) hl
        have := ih (setEntry d nb (v - 1)) q
        omega

/-- The loop measure: queue length plus the positive in-degree mass. -/
def phi (s : EngineState) : Nat := s.queue.length + sumPos s.inDegree

theorem stepProcess_phi (E : RegexEngine) (s s' : EngineState) (nodeId : String)
    (rest : List String) (node : AppNode) (hq : s.queue = nodeId :: rest)
    (h : stepProcess E s nodeId rest node = some s') : phi s' < phi s := by
  unfold stepProcess at h
  rcases Option.map_eq_some'.mp h with ⟨nr2, _, h2⟩
  subst h2
  have := triggerNeighbors_phi (lookupD s.adjacency nodeId []) s.inDegree rest
  simp only [phi, hq, List.length_cons]
  omega

theorem step_phi (E : RegexEngine) (s s' : EngineState) (hq : s.queue ≠ [])
    (h : step E s = some s') : phi s' < phi s := by
  unfold step at h
  split at h
  · exact absurd ‹s.queue = []› hq
  · rename_i nodeId rest hqe
    split at h
    · cases h
      simp [phi, hqe]
    · exact stepProcess_phi E s s' nodeId rest _ hqe h

theorem runLoop_drains (E : RegexEngine) :
    ∀ (fuel : Nat) (s : EngineState), GoodBatchSizes s.nodes → phi s ≤ fuel →
      ∃ u, runLoop E fuel s = some u ∧ u.queue = [] := by
  intro fuel
  induction fuel with
  | zero =>
    intro s _ hp
    have hq : s.queue = [] := by
      have : s.queue.length = 0 := by
        simp only [phi] at hp
        omega
      exact List.length_eq_zero.mp this
    exact ⟨s, by rw [runLoop, if_pos hq], hq⟩
  | succ g ih =>
    intro s hg hp
    cases hq : s.queue with
    | nil => exact ⟨s, by rw [runLoop]; rw [hq], hq⟩
    | cons nodeId rest =>
      obtain ⟨s2, hs2⟩ := step_some E s (by rw [hq]; simp) hg
      have hdec : phi s2 < phi s := step_phi E s s2 (by rw [hq]; simp) hs2
      have hg2 : GoodBatchSizes s2.nodes := by
        have := (step_frame E s s2 hs2).1
        rw [this]
        exact hg
      obtain ⟨u, hu, huq⟩ := ih s2 hg2 (by omega)
      refine ⟨u, ?_, huq⟩
      rw [runLoop, hq]
      show (match step E s with
        | none => none
        | some s2 => runLoop E g s2) = some u
      rw [hs2]
      exact hu

theorem mem_setEntry {α : Type} (m : List (String × α)) (k : String) (v : α) (p : String × α)
    (h : p ∈ setEntry m k v) : p = (k, v) ∨ p ∈ m := by
  induction m with
  | nil => simpa [setEntry] using h
  | cons q rest ih =>
    simp only [setEntry] at h
    by_cases hq : q.1 = k
    · rw [if_pos hq] at h
      rcases List.mem_cons.mp h with h | h
      · exact Or.inl h
      · exact Or.inr (List.mem_cons.mpr (Or.inr h))
    · rw [if_neg hq] at h
      rcases List.mem_cons.mp h with h | h
      · exact Or.inr (List.mem_cons.mpr (Or.inl h))
      · rcases ih h with h | h
        · exact Or.inl h
        · exact Or.inr (List.mem_cons.mpr (Or.inr h))

theorem nodeFold_values (nodes : List AppNode) :
    ∀ m0 : List (String × Int), (∀ p ∈ m0, p.2 = 0) →
      ∀ p ∈ nodes.foldl (fun m n => setEntry m n.id 0) m0, p.2 = 0 := by
  induction nodes with
  | nil => intro m0 h0 p hp; exact h0 p hp
  | cons n rest ih =>
    intro m0 h0 p hp
    refine ih (setEntry m0 n.id 0) ?_ p hp
    intro q hq
    rcases mem_setEntry m0 n.id 0 q hq with h | h
    · rw [h]
    · exact h0 q h

theorem sumPos_zero (m : List (String × Int)) (h : ∀ p ∈ m, p.2 = 0) : sumPos m = 0 := by
  induction m with
  | nil => rfl
  | cons p rest ih =>
    simp only [sumPos, List.map_cons, List.sum_cons]
    rw [h p (by simp)]
    simpa [sumPos] using ih (fun q hq => h q (by simp [hq]))

theorem sumPos_append (m : List (String × Int)) (x : String × Int) :
    sumPos (m ++ [x]) = sumPos m + x.2.toNat := by
  simp [sumPos]

theorem sumPos_edgeFold (edges : List AppEdge) :
    ∀ m0 : List (String × Int),
      sumPos (edges.foldl
        (fun m e => setEntry m e.target ((lookupRec m e.target).getD 0 + 1)) m0) ≤
      sumPos m0 + edges.length := by
  induction edges with
  | nil => intro m0; simp
  | cons e rest ih =>
    intro m0
    simp only [List.foldl_cons, List.length_cons]
    have hstep : sumPos (setEntry m0 e.target ((lookupRec m0 e.target).getD 0 + 1)) ≤
        sumPos m0 + 1 := by
      cases hl : lookupRec m0 e.target with
      | none =>
        rw [setEntry_eq_append m0 e.target _ hl, sumPos_append]
        simp [hl]
      | some v =>
        have := sumPos_setEntry m0 e.target v ((lookupRec m0 e.target).getD 0 + 1) hl
        rw [hl] at this
        simp only [Option.getD_some] at this ⊢
        omega
    calc sumPos (rest.foldl
          (fun m e => setEntry m e.target ((lookupRec m e.target).getD 0 + 1))
          (setEntry m0 e.target ((lookupRec m0 e.target).getD 0 + 1))) ≤
        sumPos (setEntry m0 e.target ((lookupRec m0 e.target).getD 0 + 1)) + rest.length :=
          ih _
      _ ≤ sumPos m0 + 1 + rest.length := by omega
      _ = sumPos m0 + (rest.length + 1) := by omega

theorem phi_init (nodes : List AppNode) (edges : List AppEdge) (prev : List (String × Value)) :
    phi (initState nodes edges prev) ≤ nodes.length + edges.length := by
  have hq : (initQueue nodes edges).length ≤ nodes.length := by
    simp only [initQueue, List.length_map]
    exact List.length_filter_le _ _
  have hz : sumPos (nodes.foldl (fun m n => setEntry m n.id 0) []) = 0 :=
    sumPos_zero _ (nodeFold_values nodes [] (by simp))
  have hs : sumPos (initInDeg nodes edges) ≤ edges.length := by
    have := sumPos_edgeFold edges (nodes.foldl (fun m n => setEntry m n.id 0) [])
    rw [hz] at this
    simpa [initInDeg] using this
  simp only [phi, initState]
  omega

/-- C2 (amended): `executeFlow` terminates and returns a result pair for
every node list, edge list and previous-output map, provided every BATCH
node's configured batch size is absent, zero (both default to 3) or at
least 1; the Kahn queue loop drains within fuel `nodes.length +
edges.length`.  (Without that proviso the claim is false: a negative
configured batch size makes the `processBatch` loop run forever, see the
counterexample.) -/
theorem C2_terminates (E : RegexEngine) (nodes : List AppNode) (edges : List AppEdge)
    (prev : List (String × Value)) (hg : GoodBatchSizes nodes) :
    ∃ s', runLoop E (nodes.length + edges.length) (initState nodes edges prev) = some s' ∧
      s'.queue = [] ∧ executeFlow E nodes edges prev = some ⟨s'.nodeResults, s'.edgeResults⟩ := by
  obtain ⟨u, hu, huq⟩ := runLoop_drains E (nodes.length + edges.length)
    (initState nodes edges prev) hg (phi_init nodes edges prev)
  refine ⟨u, hu, huq, ?_⟩
  unfold executeFlow
  rw [hu]
  rfl

/-- Witness for C2 on a concrete source-to-batch graph with batch size 2. -/
theorem C2_terminates_witness :
    (executeFlow noRegex [fxInput "a" "x\ny\nz", fxBatch "b" 2] [fxEdge "e" "a" "b"]
      []).isSome = true := by
  obtain ⟨s', hrun, hq, hex⟩ := C2_terminates noRegex [fxInput "a" "x\ny\nz", fxBatch "b" 2]
    [fxEdge "e" "a" "b"] [] (by unfold GoodBatchSizes; decide)
  rw [hex]
  rfl

/-- The modelled JavaScript run never returns: no amount of fuel completes
the loop. -/
def ExecutionDiverges (E : RegexEngine) (nodes : List AppNode) (edges : List AppEdge)
    (prev : List (String × Value)) : Prop :=
  ∀ fuel, runLoop E fuel (initState nodes edges prev) = none

/-- C2 counterexample: with a BATCH node whose configured batch size is
`-1` fed by a source, the `for` loop of `processBatch` never advances past
the line list (`i` decreases), so the JavaScript `executeFlow` call never
returns; in the model, no fuel completes the run and `executeFlow` is
`none`. -/
theorem C2_counterexample :
    ExecutionDiverges noRegex [fxInput "a" "x", fxBatch "b" (-1)] [fxEdge "e" "a" "b"] [] ∧
    executeFlow noRegex [fxInput "a" "x", fxBatch "b" (-1)] [fxEdge "e" "a" "b"] [] = none := by
  constructor
  · intro fuel
    match fuel with
    | 0 => rfl
    | 1 => rfl
    | (n + 2) => rfl
  · rfl

/-! ### Characterizations of the initialization folds -/

/-- Number of edges targeting `id` — the value the in-degree record holds
before any decrements. -/
def targetCount (edges : List AppEdge) (id : String) : Nat :=
  (edges.filter (fun e => e.target == id)).length

/-- The adjacency list of `id` (empty for ids that are not node ids). -/
def adjOf (nodes : List AppNode) (edges : List AppEdge) (id : String) : List String :=
  lookupD (initAdj nodes edges) id []

/-- Total number of decrements delivered to `id` by the processed log `p`. -/
def deliveredTo (nodes : List AppNode) (edges : List AppEdge) (p : List String)
    (id : String) : Nat :=
  (p.map (fun m => (adjOf nodes edges m).count id)).sum

theorem targetCount_cons (e : AppEdge) (rest : List AppEdge) (id : String) :
    targetCount (e :: rest) id =
      (if e.target == id then 1 else 0) + targetCount rest id := by
  by_cases h : e.target == id
  · simp [targetCount, List.filter_cons, h, Nat.add_comm]
  · simp only [Bool.not_eq_true] at h
    simp [targetCount, List.filter_cons, h]

theorem targetCount_pos_of_mem (edges : List AppEdge) (e : AppEdge) (he : e ∈ edges)
    (id : String) (ht : e.target = id) : 1 ≤ targetCount edges id := by
  have : e ∈ edges.filter (fun x => x.target == id) :=
    List.mem_filter.mpr ⟨he, by simp [ht]⟩
  have := List.length_pos.mpr (List.ne_nil_of_mem this)
  simpa [targetCount] using this

theorem nodeFold_lookup {α : Type} (c : α) (nodes : List AppNode) :
    ∀ (m0 : List (String × α)) (id : String),
      lookupRec (nodes.foldl (fun m n => setEntry m n.id c) m0) id =
        if id ∈ idsOf nodes then some c else lookupRec m0 id := by
  induction nodes with
  | nil => intro m0 id; simp [idsOf]
  | cons n rest ih =>
    intro m0 id
    simp only [List.foldl_cons]
    rw [ih (setEntry m0 n.id c) id]
    by_cases hr : id ∈ idsOf rest
    · have h1 : id ∈ idsOf (n :: rest) := by
        simp only [idsOf, List.map_cons, List.mem_cons]
        right
        simpa [idsOf] using hr
      rw [if_pos hr, if_pos h1]
    · by_cases hn : n.id = id
      · simp [idsOf, hr, hn, lookupRec_setEntry_self]
      · have : ¬ id ∈ idsOf (n :: rest) := by
          simp only [idsOf, List.map_cons, List.mem_cons]
          push_neg
          exact ⟨Ne.symm hn, by simpa [idsOf] using hr⟩
        simp only [if_neg hr, if_neg this]
        exact lookupRec_setEntry_ne m0 n.id id c (Ne.symm hn)

theorem edgeFold_lookup (edges : List AppEdge) :
    ∀ (m0 : List (String × Int)) (id : String),
      lookupRec (edges.foldl
        (fun m e => setEntry m e.target ((lookupRec m e.target).getD 0 + 1)) m0) id =
      if targetCount edges id = 0 then lookupRec m0 id
      else some ((lookupRec m0 id).getD 0 + targetCount edges id) := by
  induction edges with
  | nil => intro m0 id; simp [targetCount]
  | cons e rest ih =>
    intro m0 id
    simp only [List.foldl_cons]
    rw [ih (setEntry m0 e.target ((lookupRec m0 e.target).getD 0 + 1)) id]
    by_cases he : e.target = id
    · subst he
      rw [lookupRec_setEntry_self]
      rw [targetCount_cons]
      simp only [beq_self_eq_true, if_pos rfl]
      by_cases hr : targetCount rest e.target = 0
      · simp [hr]
      · rw [if_neg hr, if_neg (by omega)]
        simp only [Option.getD_some]
        congr 1
        push_cast
        ring
    · rw [lookupRec_setEntry_ne m0 e.target id _ (Ne.symm he)]
      rw [targetCount_cons]
      have : (e.target == id) = false := beq_eq_false_iff_ne.mpr he
      simp [this]

theorem initInDeg_lookup_mem (nodes : List AppNode) (edges : List AppEdge) (id : String)
    (h : id ∈ idsOf nodes) :
    lookupRec (initInDeg nodes edges) id = some ((targetCount edges id : Int)) := by
  unfold initInDeg
  rw [edgeFold_lookup edges _ id, nodeFold_lookup 0 nodes [] id, if_pos h]
  by_cases hr : targetCount edges id = 0
  · simp [hr]
  · rw [if_neg hr]
    simp

theorem adjFold_lookup (edges : List AppEdge) :
    ∀ (m0 : List (String × List String)) (id : String),
      lookupRec (edges.foldl
        (fun m e =>
          match lookupRec m e.source with
          | some l => setEntry m e.source (l ++ [e.target])
          | none => m) m0) id =
      (lookupRec m0 id).map
        (fun l => l ++ (edges.filter (fun e => e.source == id)).map AppEdge.target) := by
  induction edges with
  | nil => intro m0 id; cases h : lookupRec m0 id <;> simp [h]
  | cons e rest ih =>
    intro m0 id
    simp only [List.foldl_cons]
    by_cases hs : e.source = id
    · subst hs
      cases hl : lookupRec m0 e.source with
      | none =>
        simp only [hl]
        rw [ih m0 e.source]
        simp [hl]
      | some le =>
        simp only [hl]
        rw [ih (setEntry m0 e.source (le ++ [e.target])) e.source]
        rw [lookupRec_setEntry_self]
        simp [List.filter_cons]
    · have hbeq : (e.source == id) = false := beq_eq_false_iff_ne.mpr hs
      cases hl : lookupRec m0 e.source with
      | none =>
        simp only [hl]
        rw [ih m0 id]
        simp [List.filter_cons, hbeq]
      | some le =>
        simp only [hl]
        rw [ih (setEntry m0 e.source (le ++ [e.target])) id]
        rw [lookupRec_setEntry_ne m0 e.source id _ (Ne.symm hs)]
        simp [List.filter_cons, hbeq]

theorem initAdj_lookup_mem (nodes : List AppNode) (edges : List AppEdge) (id : String)
    (h : id ∈ idsOf nodes) :
    lookupRec (initAdj nodes edges) id =
      some ((edges.filter (fun e => e.source == id)).map AppEdge.target) := by
  unfold initAdj
  rw [adjFold_lookup edges _ id, nodeFold_lookup [] nodes [] id, if_pos h]
  rfl

theorem initAdj_lookup_not_mem (nodes : List AppNode) (edges : List AppEdge) (id : String)
    (h : ¬ id ∈ idsOf nodes) : lookupRec (initAdj nodes edges) id = none := by
  unfold initAdj
  rw [adjFold_lookup edges _ id, nodeFold_lookup [] nodes [] id, if_neg h]
  rfl

theorem adjOf_eq_of_mem (nodes : List AppNode) (edges : List AppEdge) (id : String)
    (h : id ∈ idsOf nodes) :
    adjOf nodes edges id = (edges.filter (fun e => e.source == id)).map AppEdge.target := by
  simp [adjOf, lookupD, initAdj_lookup_mem nodes edges id h]

theorem adjOf_eq_of_not_mem (nodes : List AppNode) (edges : List AppEdge) (id : String)
    (h : ¬ id ∈ idsOf nodes) : adjOf nodes edges id = [] := by
  simp [adjOf, lookupD, initAdj_lookup_not_mem nodes edges id h]

/-! ### Characterization of the neighbour trigger -/

theorem triggerNeighbors_lookup_some (A : List String) :
    ∀ (d : List (String × Int)) (q : List String) (id : String) (v0 : Int),
      lookupRec d id = some v0 →
      lookupRec (triggerNeighbors A d q).1 id = some (v0 - (A.count id : Int)) ∧
      (triggerNeighbors A d q).2.count id =
        q.count id + (if 1 ≤ v0 ∧ v0 ≤ (A.count id : Int) then 1 else 0) := by
  induction A with
  | nil =>
    intro d q id v0 hl
    simp only [triggerNeighbors, List.count_nil]
    refine ⟨by simpa using hl, ?_⟩
    rw [if_neg (by push_cast; omega)]
    omega
  | cons nb rest ih =>
    intro d q id v0 hl
    by_cases hnb : nb = id
    · subst hnb
      simp only [triggerNeighbors, hl]
      have hcnt : (nb :: rest).count nb = rest.count nb + 1 := by
        simp [List.count_cons]
      by_cases hz : v0 - 1 = 0
      · rw [if_pos hz]
        obtain ⟨h1, h2⟩ := ih (setEntry d nb (v0 - 1)) (q ++ [nb]) nb (v0 - 1)
          (lookupRec_setEntry_self d nb (v0 - 1))
        refine ⟨?_, ?_⟩
        · rw [h1, hcnt]
          congr 1
          push_cast
          omega
        · rw [h2, hcnt]
          have hq2 : (q ++ [nb]).count nb = q.count nb + 1 := by
            simp [List.count_append]
          rw [hq2]
          rw [if_neg (by omega), if_pos (by constructor <;> [omega; (push_cast; omega)])]
      · rw [if_neg hz]
        obtain ⟨h1, h2⟩ := ih (setEntry d nb (v0 - 1)) q nb (v0 - 1)
          (lookupRec_setEntry_self d nb (v0 - 1))
        refine ⟨?_, ?_⟩
        · rw [h1, hcnt]
          congr 1
          push_cast
          omega
        · rw [h2, hcnt]
          congr 1
          by_cases hb : 1 ≤ v0 - 1 ∧ v0 - 1 ≤ (rest.count nb : Int)
          · rw [if_pos hb, if_pos (by push_cast at hb ⊢; omega)]
          · rw [if_neg hb, if_neg (by push_cast at hb ⊢; omega)]
    · have hcnt : (nb :: rest).count id = rest.count id := by
        simp [List.count_cons, beq_eq_false_iff_ne.mpr hnb]
      cases hlnb : lookupRec d nb with
      | none =>
        simp only [triggerNeighbors, hlnb]
        obtain ⟨h1, h2⟩ := ih d q id v0 hl
        rw [hcnt]
        exact ⟨h1, h2⟩
      | some w =>
        simp only [triggerNeighbors, hlnb]
        have hl2 : lookupRec (setEntry d nb (w - 1)) id = some v0 := by
          rw [lookupRec_setEntry_ne d nb id _ (Ne.symm hnb)]
          exact hl
        by_cases hz : w - 1 = 0
        · rw [if_pos hz]
          obtain ⟨h1, h2⟩ := ih (setEntry d nb (w - 1)) (q ++ [nb]) id v0 hl2
          refine ⟨by rw [h1, hcnt], ?_⟩
          rw [h2, hcnt]
          have : (q ++ [nb]).count id = q.count id := by
            simp [List.count_append, List.count_cons, beq_eq_false_iff_ne.mpr hnb]
          rw [this]
        · rw [if_neg hz]
          obtain ⟨h1, h2⟩ := ih (setEntry d nb (w - 1)) q id v0 hl2
          exact ⟨by rw [h1, hcnt], by rw [h2, hcnt]⟩

theorem triggerNeighbors_lookup_none (A : List String) :
    ∀ (d : List (String × Int)) (q : List String) (id : String),
      lookupRec d id = none →
      lookupRec (triggerNeighbors A d q).1 id = none ∧
      (triggerNeighbors A d q).2.count id = q.count id := by
  induction A with
  | nil => intro d q id hl; exact ⟨hl, rfl⟩
  | cons nb rest ih =>
    intro d q id hl
    cases hlnb : lookupRec d nb with
    | none =>
      simp only [triggerNeighbors, hlnb]
      exact ih d q id hl
    | some w =>
      simp only [triggerNeighbors, hlnb]
      have hnb : nb ≠ id := by
        intro h
        subst h
        rw [hl] at hlnb
        cases hlnb
      have hl2 : lookupRec (setEntry d nb (w - 1)) id = none := by
        rw [lookupRec_setEntry_ne d nb id _ (Ne.symm hnb)]
        exact hl
      by_cases hz : w - 1 = 0
      · rw [if_pos hz]
        obtain ⟨h1, h2⟩ := ih (setEntry d nb (w - 1)) (q ++ [nb]) id hl2
        refine ⟨h1, ?_⟩
        rw [h2]
        simp [List.count_append, List.count_cons, beq_eq_false_iff_ne.mpr hnb]
      · rw [if_neg hz]
        exact ih (setEntry d nb (w - 1)) q id hl2

/-! ### Queue/processed counting helpers -/

theorem count_filter_map_zero (l : List AppNode) (P : AppNode → Bool) (id : String)
    (h : id ∉ idsOf l) : ((l.filter P).map AppNode.id).count id = 0 := by
  rw [List.count_eq_zero]
  intro hmem
  rcases List.mem_map.mp hmem with ⟨n, hn, hid⟩
  exact h (List.mem_map.mpr ⟨n, List.mem_of_mem_filter hn, hid⟩)

theorem count_filter_map_unique (l : List AppNode) (P : AppNode → Bool) (id : String)
    (hN : (idsOf l).Nodup) (n0 : AppNode) (hmem : n0 ∈ l) (hid : n0.id = id) :
    ((l.filter P).map AppNode.id).count id = if P n0 then 1 else 0 := by
  induction l with
  | nil => cases hmem
  | cons m rest ih =>
    have hN2 : m.id ∉ List.map AppNode.id rest ∧ (List.map AppNode.id rest).Nodup := by
      rw [idsOf, List.map_cons, List.nodup_cons] at hN
      exact hN
    have hNr : (idsOf rest).Nodup := hN2.2
    have hmnotin : m.id ∉ idsOf rest := hN2.1
    by_cases hm : m.id = id
    · have hn0 : n0 = m := by
        rcases List.mem_cons.mp hmem with h | h
        · exact h
        · exact absurd (List.mem_map.mpr ⟨n0, h, hid.trans hm.symm⟩) hmnotin
      have hrest : ((rest.filter P).map AppNode.id).count id = 0 :=
        count_filter_map_zero rest P id (hm ▸ hmnotin)
      have key : (((m :: rest).filter P).map AppNode.id).count id = if P m then 1 else 0 := by
        cases hp : P m with
        | true => simp [List.filter_cons, hp, List.count_cons, hm, hrest]
        | false => simp [List.filter_cons, hp, hrest]
      rw [key, hn0]
    · have hn0r : n0 ∈ rest := by
        rcases List.mem_cons.mp hmem with h | h
        · exact absurd (congrArg AppNode.id h.symm ▸ hid) hm
        · exact h
      have hrec := ih hNr hn0r
      cases hp : P m with
      | true =>
        simp only [List.filter_cons, hp, if_true, List.map_cons]
        rw [List.count_cons]
        simp only [beq_eq_false_iff_ne.mpr hm, if_false]
        simpa using hrec
      | false =>
        simpa [List.filter_cons, hp] using hrec

theorem initQueue_count (nodes : List AppNode) (edges : List AppEdge)
    (hN : (idsOf nodes).Nodup) (id : String) (n0 : AppNode) (hmem : n0 ∈ nodes)
    (hid : n0.id = id) :
    (initQueue nodes edges).count id = if targetCount edges id = 0 then 1 else 0 := by
  unfold initQueue
  rw [count_filter_map_unique nodes _ id hN n0 hmem hid]
  have hchar := initInDeg_lookup_mem nodes edges n0.id (List.mem_map.mpr ⟨n0, hmem, rfl⟩)
  have heq : (decide (lookupRec (initInDeg nodes edges) n0.id = some 0) = true) ↔
      targetCount edges id = 0 := by
    rw [hchar, hid]
    simp only [decide_eq_true_eq, Option.some.injEq]
    exact ⟨fun h => by exact_mod_cast h, fun h => by exact_mod_cast h⟩
  by_cases hz : targetCount edges id = 0
  · rw [if_pos hz, if_pos (heq.mpr hz)]
  · rw [if_neg hz, if_neg (fun hc => hz (heq.mp hc))]

/-! ### Lookup of a node by id -/

theorem find?_eq_none_iff_not_mem (nodes : List AppNode) (id : String) :
    nodes.find? (fun n => n.id == id) = none ↔ id ∉ idsOf nodes := by
  rw [List.find?_eq_none]
  constructor
  · intro h hmem
    rcases List.mem_map.mp hmem with ⟨n, hn, hid⟩
    exact h n hn (by simp [hid])
  · intro h n hn
    simp only [beq_iff_eq]
    intro hid
    exact h (List.mem_map.mpr ⟨n, hn, hid⟩)

theorem find?_props (nodes : List AppNode) (id : String) (node : AppNode)
    (h : nodes.find? (fun n => n.id == id) = some node) :
    node ∈ nodes ∧ node.id = id := by
  refine ⟨List.mem_of_find?_eq_some h, ?_⟩
  have := List.find?_some h
  simpa using this

theorem find?_unique (nodes : List AppNode) (n : AppNode)
    (huniq : ∀ n' ∈ nodes, n'.id = n.id → n' = n) (hmem : n ∈ nodes) :
    nodes.find? (fun x => x.id == n.id) = some n := by
  induction nodes with
  | nil => cases hmem
  | cons m rest ih =>
    by_cases hm : m.id = n.id
    · have : m = n := huniq m (by simp) hm
      subst this
      simp [List.find?_cons]
    · have hne : (m.id == n.id) = false := beq_eq_false_iff_ne.mpr hm
      rw [List.find?_cons, hne]
      have hmemr : n ∈ rest := by
        rcases List.mem_cons.mp hmem with h | h
        · exact absurd (congrArg AppNode.id h.symm) hm
        · exact h
      exact ih (fun n' hn' => huniq n' (List.mem_cons.mpr (Or.inr hn'))) hmemr

theorem find?_of_nodup (nodes : List AppNode) (n : AppNode) (hN : (idsOf nodes).Nodup)
    (hmem : n ∈ nodes) : nodes.find? (fun x => x.id == n.id) = some n := by
  refine find?_unique nodes n ?_ hmem
  intro n' hn' hid
  exact List.inj_on_of_nodup_map (by simpa [idsOf] using hN) hn' hmem hid

/-! ### Shape of one loop iteration -/

theorem stepNR_cases (E : RegexEngine) (s : EngineState) (k : String) (node : AppNode)
    (nr2 : List (String × Value)) (h : stepNR E s k node = some nr2) :
    (stepInputData s k node = none ∧ nr2 = s.nodeResults) ∨
    (∃ v out, stepInputData s k node = some v ∧
      dispatchNode E node s.prevNodeResults v = some out ∧
      nr2 = setEntry s.nodeResults k out) := by
  unfold stepNR at h
  cases hin : stepInputData s k node with
  | none =>
    rw [hin] at h
    dsimp only at h
    cases h
    exact Or.inl ⟨rfl, rfl⟩
  | some v =>
    rw [hin] at h
    dsimp only at h
    rcases Option.map_eq_some'.mp h with ⟨out, hout, hnr⟩
    exact Or.inr ⟨v, out, rfl, hout, hnr.symm⟩

theorem step_cases (E : RegexEngine) (s s' : EngineState) (k : String) (rest : List String)
    (hq : s.queue = k :: rest) (h : step E s = some s') :
    (s.nodes.find? (fun n => n.id == k) = none ∧ s' = { s with queue := rest }) ∨
    (∃ node nr2, s.nodes.find? (fun n => n.id == k) = some node ∧
      stepNR E s k node = some nr2 ∧
      s' = { s with
        queue := (triggerNeighbors (lookupD s.adjacency k []) s.inDegree rest).2
        inDegree := (triggerNeighbors (lookupD s.adjacency k []) s.inDegree rest).1
        nodeResults := nr2
        edgeResults := stepER s k
        processed := s.processed ++ [k] }) := by
  unfold step at h
  rw [hq] at h
  dsimp only at h
  cases hfind : s.nodes.find? (fun n => n.id == k) with
  | none =>
    rw [hfind] at h
    dsimp only at h
    cases h
    exact Or.inl ⟨rfl, rfl⟩
  | some node =>
    rw [hfind] at h
    dsimp only at h
    unfold stepProcess at h
    rcases Option.map_eq_some'.mp h with ⟨nr2, hnr, hs'⟩
    exact Or.inr ⟨node, nr2, rfl, hnr, hs'.symm⟩

theorem step_queue_nil (E : RegexEngine) (s s' : EngineState) (hq : s.queue = [])
    (h : step E s = some s') : s' = s := by
  unfold step at h
  rw [hq] at h
  dsimp only at h
  cases h
  rfl

theorem deliveredTo_append (nodes : List AppNode) (edges : List AppEdge) (p : List String)
    (k : String) (id : String) :
    deliveredTo nodes edges (p ++ [k]) id =
      deliveredTo nodes edges p id + (adjOf nodes edges k).count id := by
  simp [deliveredTo]

theorem push_bracket (tc dl ac : Nat) :
    (if 0 < tc ∧ tc ≤ dl + ac then (1 : Nat) else 0) =
      (if 0 < tc ∧ tc ≤ dl then 1 else 0) +
      (if 1 ≤ (tc : Int) - (dl : Int) ∧ (tc : Int) - (dl : Int) ≤ (ac : Int) then 1 else 0) := by
  by_cases h1 : 0 < tc ∧ tc ≤ dl + ac
  · rw [if_pos h1]
    by_cases h2 : 0 < tc ∧ tc ≤ dl
    · rw [if_pos h2, if_neg (by omega)]
    · rw [if_neg h2, if_pos (by omega)]
  · rw [if_neg h1]
    rw [if_neg (by omega), if_neg (by omega)]

/-! ### The Kahn-scheduling invariant -/

/-- The invariant that ties a loop state to the initial graph data:
the frame components are untouched; the in-degree record of every node id
equals its edge count minus the delivered decrements; every node id's
total number of queue appearances plus processed appearances is 1 exactly
when it was initially enqueued (no in-edges) or its counter has reached 0
(all in-edges delivered), and 0 otherwise; the node-results record has no
duplicate keys; entries of unprocessed ids still hold their seeded value
(or are absent); and only node ids are ever processed. -/
structure KahnInv (nodes : List AppNode) (edges : List AppEdge) (prev : List (String × Value))
    (s : EngineState) : Prop where
  frameNodes : s.nodes = nodes
  frameEdges : s.edges = edges
  framePrev : s.prevNodeResults = prev
  frameAdj : s.adjacency = initAdj nodes edges
  degEq : ∀ id ∈ idsOf nodes, lookupRec s.inDegree id =
    some ((targetCount edges id : Int) - (deliveredTo nodes edges s.processed id : Int))
  cntEq : ∀ id ∈ idsOf nodes,
    s.queue.count id + s.processed.count id =
      (if targetCount edges id = 0 then 1 else 0) +
      (if 0 < targetCount edges id ∧
          targetCount edges id ≤ deliveredTo nodes edges s.processed id then 1 else 0)
  nrKeys : (s.nodeResults.map Prod.fst).Nodup
  unwritten : ∀ id, id ∉ s.processed →
    lookupRec s.nodeResults id = lookupRec (seedResults nodes) id
  processedSub : ∀ id ∈ s.processed, id ∈ idsOf nodes

theorem seedResults_keysNodup (nodes : List AppNode) :
    ((seedResults nodes).map Prod.fst).Nodup := by
  have hgen : ∀ (l : List AppNode) (m0 : List (String × Value)), (m0.map Prod.fst).Nodup →
      ((l.foldl (fun m n =>
        if n.data.type = NodeType.INPUT ∨ n.data.type = NodeType.EMITTER then
          setEntry m n.id (.vstr (jsOrEmptyStr (n.data.params.bind Params.pattern)))
        else m) m0).map Prod.fst).Nodup := by
    intro l
    induction l with
    | nil => intro m0 h; exact h
    | cons n rest ih =>
      intro m0 h
      simp only [List.foldl_cons]
      by_cases ht : n.data.type = NodeType.INPUT ∨ n.data.type = NodeType.EMITTER
      · rw [if_pos ht]
        exact ih _ (nodupKeys_setEntry m0 _ _ h)
      · rw [if_neg ht]
        exact ih _ h
  exact hgen nodes [] (by simp)

theorem KahnInv_init (nodes : List AppNode) (edges : List AppEdge)
    (prev : List (String × Value)) (hN : (idsOf nodes).Nodup) :
    KahnInv nodes edges prev (initState nodes edges prev) := by
  refine ⟨rfl, rfl, rfl, rfl, ?_, ?_, seedResults_keysNodup nodes, fun id _ => rfl, ?_⟩
  · intro id hid
    have hproc : (initState nodes edges prev).processed = [] := rfl
    rw [hproc]
    show lookupRec (initInDeg nodes edges) id = _
    rw [initInDeg_lookup_mem nodes edges id hid]
    simp [deliveredTo]
  · intro id hid
    rcases List.mem_map.mp hid with ⟨n0, hmem, hn0⟩
    have hproc : (initState nodes edges prev).processed = [] := rfl
    have hqueue : (initState nodes edges prev).queue = initQueue nodes edges := rfl
    rw [hproc, hqueue]
    rw [initQueue_count nodes edges hN id n0 hmem hn0]
    have hdel : deliveredTo nodes edges [] id = 0 := by simp [deliveredTo]
    rw [hdel]
    have hbr : (if 0 < targetCount edges id ∧ targetCount edges id ≤ 0 then (1 : Nat) else 0)
        = 0 := by
      rw [if_neg]
      rintro ⟨h1, h2⟩
      omega
    rw [hbr]
    simp
  · intro id h
    exact absurd h (List.not_mem_nil id)

theorem KahnInv_step (E : RegexEngine) (nodes : List AppNode) (edges : List AppEdge)
    (prev : List (String × Value)) (s s' : EngineState)
    (hInv : KahnInv nodes edges prev s) (h : step E s = some s') :
    KahnInv nodes edges prev s' := by
  cases hq : s.queue with
  | nil =>
    rw [step_queue_nil E s s' hq h]
    exact hInv
  | cons k rest =>
    rcases step_cases E s s' k rest hq h with ⟨hfind, hs'⟩ | ⟨node, nr2, hfind, hnr, hs'⟩
    · have hknotin : k ∉ idsOf nodes := by
        rw [hInv.frameNodes] at hfind
        exact (find?_eq_none_iff_not_mem nodes k).mp hfind
      subst hs'
      refine ⟨hInv.frameNodes, hInv.frameEdges, hInv.framePrev, hInv.frameAdj, hInv.degEq,
        ?_, hInv.nrKeys, hInv.unwritten, hInv.processedSub⟩
      intro id hid
      have hkid : k ≠ id := fun hk => hknotin (hk ▸ hid)
      have hcnt := hInv.cntEq id hid
      rw [hq] at hcnt
      have hcc : (k :: rest).count id = rest.count id := by
        simp [List.count_cons, beq_eq_false_iff_ne.mpr hkid]
      show rest.count id + s.processed.count id = _
      rw [← hcc]
      exact hcnt
    · have hfind' := hfind
      rw [hInv.frameNodes] at hfind'
      obtain ⟨hnodemem, hnodeid⟩ := find?_props nodes k node hfind'
      have hkin : k ∈ idsOf nodes := List.mem_map.mpr ⟨node, hnodemem, hnodeid⟩
      have hAdj : lookupD s.adjacency k [] = adjOf nodes edges k := by
        rw [hInv.frameAdj]
        rfl
      subst hs'
      refine ⟨hInv.frameNodes, hInv.frameEdges, hInv.framePrev, hInv.frameAdj, ?_, ?_, ?_, ?_, ?_⟩
      · intro id hid
        have hdeg := hInv.degEq id hid
        have htrig := (triggerNeighbors_lookup_some (lookupD s.adjacency k []) s.inDegree rest
          id _ hdeg).1
        show lookupRec (triggerNeighbors (lookupD s.adjacency k []) s.inDegree rest).1 id = _
        rw [htrig, hAdj]
        show _ = some ((targetCount edges id : Int) -
          (deliveredTo nodes edges (s.processed ++ [k]) id : Int))
        rw [deliveredTo_append]
        congr 1
        push_cast
        ring
      · intro id hid
        have hdeg := hInv.degEq id hid
        have htrig := (triggerNeighbors_lookup_some (lookupD s.adjacency k []) s.inDegree rest
          id _ hdeg).2
        have hcnt := hInv.cntEq id hid
        rw [hq] at hcnt
        show (triggerNeighbors (lookupD s.adjacency k []) s.inDegree rest).2.count id +
          (s.processed ++ [k]).count id = _
        rw [htrig, hAdj, List.count_append, deliveredTo_append]
        rw [push_bracket (targetCount edges id) (deliveredTo nodes edges s.processed id)
          ((adjOf nodes edges k).count id)]
        by_cases hk : k = id
        · subst hk
          have h1 : (k :: rest).count k = rest.count k + 1 := by simp [List.count_cons]
          have h2 : List.count k [k] = 1 := by simp
          rw [h1] at hcnt
          rw [h2]
          omega
        · have h1 : (k :: rest).count id = rest.count id := by
            simp [List.count_cons, beq_eq_false_iff_ne.mpr hk]
          have h2 : List.count id [k] = 0 := by
            simp [List.count_cons, beq_eq_false_iff_ne.mpr hk]
          rw [h1] at hcnt
          rw [h2]
          omega
      · rcases stepNR_cases E s k node nr2 hnr with ⟨_, hnr2⟩ | ⟨v, out, _, _, hnr2⟩
        · show (nr2.map Prod.fst).Nodup
          rw [hnr2]
          exact hInv.nrKeys
        · show (nr2.map Prod.fst).Nodup
          rw [hnr2]
          exact nodupKeys_setEntry _ _ _ hInv.nrKeys
      · intro id hidp
        have hnotk : id ≠ k := by
          intro he
          exact hidp (by rw [he]; exact List.mem_append.mpr (Or.inr (by simp)))
        have hnotp : id ∉ s.processed := fun he => hidp (List.mem_append.mpr (Or.inl he))
        show lookupRec nr2 id = _
        rcases stepNR_cases E s k node nr2 hnr with ⟨_, hnr2⟩ | ⟨v, out, _, _, hnr2⟩
        · rw [hnr2]
          exact hInv.unwritten id hnotp
        · rw [hnr2, lookupRec_setEntry_ne s.nodeResults k id out hnotk]
          exact hInv.unwritten id hnotp
      · intro id hidp
        rcases List.mem_append.mp hidp with hcase | hcase
        · exact hInv.processedSub id hcase
        · rw [List.mem_singleton.mp hcase]
          exact hkin

theorem KahnInv_runLoop (E : RegexEngine) (nodes : List AppNode) (edges : List AppEdge)
    (prev : List (String × Value)) :
    ∀ (fuel : Nat) (s u : EngineState), KahnInv nodes edges prev s →
      runLoop E fuel s = some u → KahnInv nodes edges prev u := by
  intro fuel
  induction fuel with
  | zero =>
    intro s u hInv h
    unfold runLoop at h
    split at h
    · cases h; exact hInv
    · cases h
  | succ g ih =>
    intro s u hInv h
    unfold runLoop at h
    split at h
    · cases h; exact hInv
    · revert h
      cases hs : step E s with
      | none => intro h; cases h
      | some s2 => exact fun h => ih s2 u (KahnInv_step E nodes edges prev s s2 hInv hs) h

/-! ### Stability and monotonicity of node results along the run -/

theorem cnt_rhs_le_one (tc dl : Nat) :
    (if tc = 0 then (1 : Nat) else 0) + (if 0 < tc ∧ tc ≤ dl then 1 else 0) ≤ 1 := by
  by_cases h1 : tc = 0
  · rw [if_pos h1, if_neg (by omega)]
  · rw [if_neg h1]
    by_cases h2 : 0 < tc ∧ tc ≤ dl
    · rw [if_pos h2]
    · rw [if_neg h2]
      omega

theorem processed_count_le_one (nodes : List AppNode) (edges : List AppEdge)
    (prev : List (String × Value)) (s : EngineState) (hInv : KahnInv nodes edges prev s)
    (id : String) (hid : id ∈ idsOf nodes) :
    s.queue.count id + s.processed.count id ≤ 1 := by
  rw [hInv.cntEq id hid]
  exact cnt_rhs_le_one _ _

theorem processed_nodup (nodes : List AppNode) (edges : List AppEdge)
    (prev : List (String × Value)) (s : EngineState) (hInv : KahnInv nodes edges prev s) :
    s.processed.Nodup := by
  rw [List.nodup_iff_count_le_one]
  intro id
  by_cases hid : id ∈ idsOf nodes
  · have := processed_count_le_one nodes edges prev s hInv id hid
    omega
  · have : s.processed.count id = 0 := by
      rw [List.count_eq_zero]
      exact fun hmem => hid (hInv.processedSub id hmem)
    omega

/-- A processing step never rewrites the entry of an already-processed id. -/
theorem step_stable_processed (E : RegexEngine) (nodes : List AppNode) (edges : List AppEdge)
    (prev : List (String × Value)) (s s' : EngineState) (hInv : KahnInv nodes edges prev s)
    (h : step E s = some s') (id : String) (hidp : id ∈ s.processed) :
    lookupRec s'.nodeResults id = lookupRec s.nodeResults id := by
  cases hq : s.queue with
  | nil => rw [step_queue_nil E s s' hq h]
  | cons k rest =>
    rcases step_cases E s s' k rest hq h with ⟨_, hs'⟩ | ⟨node, nr2, hfind, hnr, hs'⟩
    · subst hs'
      rfl
    · have hfind' := hfind
      rw [hInv.frameNodes] at hfind'
      obtain ⟨hnodemem, hnodeid⟩ := find?_props nodes k node hfind'
      have hkin : k ∈ idsOf nodes := List.mem_map.mpr ⟨node, hnodemem, hnodeid⟩
      have hne : id ≠ k := by
        intro he
        subst he
        have hbound := processed_count_le_one nodes edges prev s hInv id hkin
        have h1 : 1 ≤ s.queue.count id := by
          rw [hq]
          simp [List.count_cons]
        have h2 : 1 ≤ s.processed.count id := by
          have := List.count_pos_iff.mpr hidp
          omega
        omega
      subst hs'
      show lookupRec nr2 id = _
      rcases stepNR_cases E s k node nr2 hnr with ⟨_, hnr2⟩ | ⟨v, out, _, _, hnr2⟩
      · rw [hnr2]
      · rw [hnr2, lookupRec_setEntry_ne s.nodeResults k id out hne]

/-- Presence of a node-result entry is monotone along a step. -/
theorem step_isSome_mono (E : RegexEngine) (s s' : EngineState) (h : step E s = some s')
    (id : String) (hs : (lookupRec s.nodeResults id).isSome) :
    (lookupRec s'.nodeResults id).isSome := by
  cases hq : s.queue with
  | nil => rw [step_queue_nil E s s' hq h]; exact hs
  | cons k rest =>
    rcases step_cases E s s' k rest hq h with ⟨_, hs'⟩ | ⟨node, nr2, hfind, hnr, hs'⟩
    · subst hs'; exact hs
    · subst hs'
      show (lookupRec nr2 id).isSome
      rcases stepNR_cases E s k node nr2 hnr with ⟨_, hnr2⟩ | ⟨v, out, _, _, hnr2⟩
      · rw [hnr2]; exact hs
      · rw [hnr2]
        by_cases hk : id = k
        · subst hk
          rw [lookupRec_setEntry_self]
          rfl
        · rw [lookupRec_setEntry_ne s.nodeResults k id out hk]
          exact hs

/-- The processed log only grows along a step. -/
theorem step_processed_mono (E : RegexEngine) (s s' : EngineState) (h : step E s = some s')
    (id : String) (hidp : id ∈ s.processed) : id ∈ s'.processed := by
  cases hq : s.queue with
  | nil => rw [step_queue_nil E s s' hq h]; exact hidp
  | cons k rest =>
    rcases step_cases E s s' k rest hq h with ⟨_, hs'⟩ | ⟨node, nr2, hfind, hnr, hs'⟩
    · subst hs'; exact hidp
    · subst hs'
      exact List.mem_append.mpr (Or.inl hidp)

theorem runLoop_stable_processed (E : RegexEngine) (nodes : List AppNode)
    (edges : List AppEdge) (prev : List (String × Value)) :
    ∀ (fuel : Nat) (s u : EngineState), KahnInv nodes edges prev s →
      runLoop E fuel s = some u → ∀ id ∈ s.processed,
        lookupRec u.nodeResults id = lookupRec s.nodeResults id ∧ id ∈ u.processed := by
  intro fuel
  induction fuel with
  | zero =>
    intro s u _ h id hidp
    unfold runLoop at h
    split at h
    · cases h; exact ⟨rfl, hidp⟩
    · cases h
  | succ g ih =>
    intro s u hInv h id hidp
    unfold runLoop at h
    split at h
    · cases h; exact ⟨rfl, hidp⟩
    · revert h
      cases hs : step E s with
      | none => intro h; cases h
      | some s2 =>
        intro h
        have hInv2 := KahnInv_step E nodes edges prev s s2 hInv hs
        obtain ⟨hval, hmem⟩ := ih s2 u hInv2 h id (step_processed_mono E s s2 hs id hidp)
        refine ⟨?_, hmem⟩
        rw [hval]
        exact step_stable_processed E nodes edges prev s s2 hInv hs id hidp

theorem runLoop_isSome_mono (E : RegexEngine) :
    ∀ (fuel : Nat) (s u : EngineState), runLoop E fuel s = some u →
      ∀ id, (lookupRec s.nodeResults id).isSome → (lookupRec u.nodeResults id).isSome := by
  intro fuel
  induction fuel with
  | zero =>
    intro s u h id hs
    unfold runLoop at h
    split at h
    · cases h; exact hs
    · cases h
  | succ g ih =>
    intro s u h id hs
    unfold runLoop at h
    split at h
    · cases h; exact hs
    · revert h
      cases hstep : step E s with
      | none => intro h; cases h
      | some s2 =>
        intro h
        exact ih s2 u h id (step_isSome_mono E s s2 hstep id hs)

/-! ### Delivered decrements as an edge count -/

theorem adjOf_count (nodes : List AppNode) (edges : List AppEdge) (m id : String)
    (hm : m ∈ idsOf nodes) :
    (adjOf nodes edges m).count id =
      edges.countP (fun e => e.source == m && e.target == id) := by
  rw [adjOf_eq_of_mem nodes edges m hm]
  rw [List.count_eq_countP, List.countP_map]
  rw [List.countP_filter]
  apply List.countP_congr
  intro e _
  constructor
  · intro h
    simp only [Function.comp_apply, Bool.and_eq_true] at h
    simp [h.1, h.2]
  · intro h
    simp only [Bool.and_eq_true] at h
    simp [h.1, h.2, Function.comp_apply]

theorem countP_split (edges : List AppEdge) (m : String) (p' : List String) (hm : m ∉ p')
    (id : String) :
    edges.countP (fun e => e.target == id && decide (e.source ∈ (m :: p'))) =
      edges.countP (fun e => e.source == m && e.target == id) +
      edges.countP (fun e => e.target == id && decide (e.source ∈ p')) := by
  have hind : ∀ (e : AppEdge),
      (if (e.target == id && decide (e.source ∈ (m :: p'))) = true then (1 : Nat) else 0) =
        (if (e.source == m && e.target == id) = true then (1 : Nat) else 0) +
        (if (e.target == id && decide (e.source ∈ p')) = true then (1 : Nat) else 0) := by
    intro e
    by_cases ht : e.target = id
    · by_cases hsm : e.source = m
      · have hsp : e.source ∉ p' := by rw [hsm]; exact hm
        rw [if_pos (by simp [ht, hsm]), if_pos (by simp [ht, hsm]), if_neg (by simp [hsp])]
      · by_cases hsp : e.source ∈ p'
        · rw [if_pos (by simp [ht, hsp]), if_neg (by simp [hsm]), if_pos (by simp [ht, hsp])]
        · rw [if_neg (by simp [hsm, hsp]), if_neg (by simp [hsm]), if_neg (by simp [hsp])]
    · rw [if_neg (by simp [ht]), if_neg (by simp [ht]), if_neg (by simp [ht])]
  induction edges with
  | nil => rfl
  | cons e rest ih =>
    simp only [List.countP_cons]
    rw [ih, hind e]
    omega

theorem deliveredTo_countP (nodes : List AppNode) (edges : List AppEdge) :
    ∀ (p : List String), p.Nodup → (∀ m ∈ p, m ∈ idsOf nodes) → ∀ id,
      deliveredTo nodes edges p id =
        edges.countP (fun e => e.target == id && decide (e.source ∈ p)) := by
  intro p
  induction p with
  | nil =>
    intro _ _ id
    simp only [deliveredTo, List.map_nil, List.sum_nil]
    have : ∀ e ∈ edges, (fun e => e.target == id && decide (e.source ∈ ([] : List String))) e
        = false := by
      intro e _
      simp
    rw [List.countP_eq_zero.mpr (by intro e he; simp)]
  | cons m p' ih =>
    intro hnd hsub id
    have hm : m ∉ p' := (List.nodup_cons.mp hnd).1
    have hnd' : p'.Nodup := (List.nodup_cons.mp hnd).2
    have hsub' : ∀ x ∈ p', x ∈ idsOf nodes := fun x hx => hsub x (List.mem_cons.mpr (Or.inr hx))
    simp only [deliveredTo, List.map_cons, List.sum_cons]
    rw [countP_split edges m p' hm id]
    have h1 : (adjOf nodes edges m).count id =
        edges.countP (fun e => e.source == m && e.target == id) :=
      adjOf_count nodes edges m id (hsub m (by simp))
    have h2 := ih hnd' hsub' id
    simp only [deliveredTo] at h2
    rw [h1, h2]

theorem targetCount_eq_countP (edges : List AppEdge) (id : String) :
    targetCount edges id = edges.countP (fun e => e.target == id) := by
  rw [targetCount, ← List.countP_eq_length_filter]

theorem deliveredTo_full (nodes : List AppNode) (edges : List AppEdge) (p : List String)
    (hnd : p.Nodup) (hsub : ∀ m ∈ p, m ∈ idsOf nodes) (id : String)
    (hall : ∀ e ∈ edges, e.target = id → e.source ∈ p) :
    deliveredTo nodes edges p id = targetCount edges id := by
  rw [deliveredTo_countP nodes edges p hnd hsub id, targetCount_eq_countP]
  apply List.countP_congr
  intro e he
  by_cases ht : e.target = id
  · simp [ht, hall e he ht]
  · simp [beq_eq_false_iff_ne.mpr ht]

theorem countP_lt_of_witness {α : Type} (l : List α) (p q : α → Bool)
    (hpq : ∀ a ∈ l, p a = true → q a = true) (a0 : α) (ha0 : a0 ∈ l) (hqa : q a0 = true)
    (hpa : p a0 = false) : l.countP p < l.countP q := by
  induction l with
  | nil => cases ha0
  | cons a rest ih =>
    simp only [List.countP_cons]
    rcases List.mem_cons.mp ha0 with hcase | hcase
    · subst hcase
      have hmono : rest.countP p ≤ rest.countP q :=
        List.countP_mono_left (fun x hx => hpq x (List.mem_cons.mpr (Or.inr hx)))
      rw [hpa, hqa]
      simp only [Bool.false_eq_true, if_false, if_true]
      omega
    · have hstrict := ih (fun x hx => hpq x (List.mem_cons.mpr (Or.inr hx))) hcase
      have hhead : (if p a then 1 else 0) ≤ (if q a then (1 : Nat) else 0) := by
        by_cases hp : p a = true
        · rw [if_pos hp, if_pos (hpq a (by simp) hp)]
        · rw [if_neg hp]
          omega
      omega

theorem deliveredTo_lt (nodes : List AppNode) (edges : List AppEdge) (p : List String)
    (hnd : p.Nodup) (hsub : ∀ m ∈ p, m ∈ idsOf nodes) (id : String) (e0 : AppEdge)
    (he0 : e0 ∈ edges) (ht : e0.target = id) (hs : e0.source ∉ p) :
    deliveredTo nodes edges p id < targetCount edges id := by
  rw [deliveredTo_countP nodes edges p hnd hsub id, targetCount_eq_countP]
  refine countP_lt_of_witness edges _ _ ?_ e0 he0 (by simp [ht]) ?_
  · intro e _ hp
    simp only [Bool.and_eq_true] at hp
    exact hp.1
  · simp [hs]

/-! ### Graph-level notions for the claims -/

/-- There is an edge from `a` to `b`. -/
def EdgeRel (edges : List AppEdge) (a b : String) : Prop :=
  ∃ e ∈ edges, e.source = a ∧ e.target = b

/-- No directed cycle: no id reaches itself through a non-empty edge path. -/
def AcyclicEdges (edges : List AppEdge) : Prop :=
  ∀ id, ¬ Relation.TransGen (EdgeRel edges) id id

/-- Every edge endpoint names an existing node. -/
def ValidEdges (nodes : List AppNode) (edges : List AppEdge) : Prop :=
  ∀ e ∈ edges, e.source ∈ idsOf nodes ∧ e.target ∈ idsOf nodes

/-- `id` is reachable (in zero or more edge steps) from some node whose
recorded initial in-degree is zero. -/
def ReachesFromZeroInDeg (nodes : List AppNode) (edges : List AppEdge) (id : String) : Prop :=
  ∃ z ∈ nodes, lookupRec (initInDeg nodes edges) z.id = some 0 ∧
    Relation.ReflTransGen (EdgeRel edges) z.id id

/-- Number of entries a record holds under a key. -/
def countEntries {α : Type} (m : List (String × α)) (id : String) : Nat :=
  (m.filter (fun p => p.1 == id)).length

theorem countEntries_eq (m : List (String × Value)) (id : String)
    (hnd : (m.map Prod.fst).Nodup) :
    countEntries m id = if (lookupRec m id).isSome then 1 else 0 := by
  induction m with
  | nil => rfl
  | cons p rest ih =>
    have hnd2 : p.1 ∉ rest.map Prod.fst ∧ (rest.map Prod.fst).Nodup := by
      rw [List.map_cons, List.nodup_cons] at hnd
      exact hnd
    by_cases hp : p.1 = id
    · have hz : countEntries rest id = 0 := by
        rw [countEntries, List.length_eq_zero]
        rw [List.filter_eq_nil_iff]
        intro q hq
        simp only [beq_iff_eq]
        intro hqid
        exact hnd2.1 (hp ▸ hqid ▸ List.mem_map.mpr ⟨q, hq, rfl⟩)
      rw [countEntries, List.filter_cons, if_pos (by simp [hp])]
      rw [lookupRec, if_pos hp]
      simpa [countEntries] using hz
    · rw [countEntries, List.filter_cons, if_neg (by simp [hp])]
      rw [lookupRec, if_neg hp]
      exact ih hnd2.2

theorem countEntries_le_one (m : List (String × Value)) (id : String)
    (hnd : (m.map Prod.fst).Nodup) : countEntries m id ≤ 1 := by
  rw [countEntries_eq m id hnd]
  by_cases h : (lookupRec m id).isSome
  · rw [if_pos h]
  · rw [if_neg h]
    omega

theorem aggregateInputs_isSome (inputs : List Value) (h : inputs ≠ []) :
    (aggregateInputs inputs).isSome := by
  match inputs with
  | [] => exact absurd rfl h
  | [v] => rfl
  | a :: b :: r =>
    unfold aggregateInputs
    rw [ite_self]
    rfl

/-! ### Every node id is eventually processed (valid acyclic graphs) -/

theorem final_all_processed (nodes : List AppNode) (edges : List AppEdge)
    (prev : List (String × Value)) (u : EngineState)
    (hV : ValidEdges nodes edges) (hA : AcyclicEdges edges)
    (hInv : KahnInv nodes edges prev u) (hq : u.queue = []) :
    ∀ id ∈ idsOf nodes, id ∈ u.processed := by
  haveI hfin : Finite {x : String // x ∈ idsOf nodes} :=
    (List.finite_toSet (idsOf nodes)).to_subtype
  let r : {x : String // x ∈ idsOf nodes} → {x : String // x ∈ idsOf nodes} → Prop :=
    fun a b => Relation.TransGen (EdgeRel edges) a.val b.val
  haveI : IsTrans {x : String // x ∈ idsOf nodes} r :=
    ⟨fun a b c hab hbc => Relation.TransGen.trans hab hbc⟩
  haveI : IsIrrefl {x : String // x ∈ idsOf nodes} r := ⟨fun a ha => hA a.val ha⟩
  have hwf : WellFounded r := Finite.wellFounded_of_trans_of_irrefl r
  have main : ∀ a : {x : String // x ∈ idsOf nodes}, a.val ∈ u.processed := by
    intro a
    refine hwf.induction (C := fun a => a.val ∈ u.processed) a ?_
    intro x ihx
    have hx := hInv.cntEq x.val x.prop
    rw [hq] at hx
    simp only [List.count_nil] at hx
    by_cases htc : targetCount edges x.val = 0
    · rw [if_pos htc] at hx
      have hb : (if 0 < targetCount edges x.val ∧
          targetCount edges x.val ≤ deliveredTo nodes edges u.processed x.val
          then (1 : Nat) else 0) = 0 := by
        have hc : ¬ (0 < targetCount edges x.val ∧
            targetCount edges x.val ≤ deliveredTo nodes edges u.processed x.val) := by
          rintro ⟨h1, _⟩
          omega
        rw [if_neg hc]
      rw [hb] at hx
      exact List.count_pos_iff.mp (by omega)
    · have hall : ∀ e ∈ edges, e.target = x.val → e.source ∈ u.processed := by
        intro e he ht
        have hsrc : e.source ∈ idsOf nodes := (hV e he).1
        exact ihx ⟨e.source, hsrc⟩ (Relation.TransGen.single ⟨e, he, rfl, ht⟩)
      have hnd := processed_nodup nodes edges prev u hInv
      have hdel : deliveredTo nodes edges u.processed x.val = targetCount edges x.val :=
        deliveredTo_full nodes edges u.processed hnd hInv.processedSub x.val hall
      rw [if_neg htc, if_pos ⟨by omega, by rw [hdel]⟩] at hx
      exact List.count_pos_iff.mp (by omega)
  intro id hid
  exact main ⟨id, hid⟩

/-! ### A processed node with a resolved incoming edge gets an entry -/

theorem runLoop_entry (E : RegexEngine) (nodes : List AppNode) (edges : List AppEdge)
    (prev : List (String × Value)) :
    ∀ (fuel : Nat) (s u : EngineState), KahnInv nodes edges prev s →
      runLoop E fuel s = some u → ∀ id, id ∈ idsOf nodes →
      id ∉ s.processed →
      (∃ e ∈ edges, e.target = id ∧ (lookupRec u.nodeResults e.source).isSome) →
      id ∈ u.processed →
      (lookupRec u.nodeResults id).isSome := by
  intro fuel
  induction fuel with
  | zero =>
    intro s u hInv h id hid hnp hex hup
    unfold runLoop at h
    split at h
    · cases h
      exact absurd hup hnp
    · cases h
  | succ g ih =>
    intro s u hInv h id hid hnp hex hup
    cases hq : s.queue with
    | nil =>
      unfold runLoop at h
      rw [hq] at h
      dsimp only at h
      cases h
      exact absurd hup hnp
    | cons k rest =>
      have hstep : ∃ s2, step E s = some s2 ∧ runLoop E g s2 = some u := by
        unfold runLoop at h
        rw [hq] at h
        dsimp only at h
        revert h
        cases hs : step E s with
        | none => intro h; cases h
        | some s2 => exact fun h => ⟨s2, rfl, h⟩
      obtain ⟨s2, hs2, hrun2⟩ := hstep
      have hInv2 := KahnInv_step E nodes edges prev s s2 hInv hs2
      by_cases hk : k = id
      · subst hk
        rcases step_cases E s s2 k rest hq hs2 with ⟨hfindn, _⟩ | ⟨node, nr2, hfind, hnr, hs'⟩
        · rw [hInv.frameNodes] at hfindn
          exact absurd hid ((find?_eq_none_iff_not_mem nodes k).mp hfindn)
        · obtain ⟨e, he, het, hesome⟩ := hex
          have hcnt := hInv.cntEq k hid
          have hq1 : 1 ≤ s.queue.count k := by
            rw [hq]
            simp [List.count_cons]
          have htc1 : 1 ≤ targetCount edges k := targetCount_pos_of_mem edges e he k het
          have hbr : targetCount edges k ≤ deliveredTo nodes edges s.processed k := by
            by_contra hlt
            have hb1 : (if targetCount edges k = 0 then (1 : Nat) else 0) = 0 := by
              have hc : ¬ targetCount edges k = 0 := by omega
              rw [if_neg hc]
            have hb2 : (if 0 < targetCount edges k ∧
                targetCount edges k ≤ deliveredTo nodes edges s.processed k
                then (1 : Nat) else 0) = 0 := by
              have hc : ¬ (0 < targetCount edges k ∧
                  targetCount edges k ≤ deliveredTo nodes edges s.processed k) :=
                fun hc => hlt hc.2
              rw [if_neg hc]
            rw [hb1, hb2] at hcnt
            omega
          have hsrcp : e.source ∈ s.processed := by
            by_contra hnpsrc
            have := deliveredTo_lt nodes edges s.processed
              (processed_nodup nodes edges prev s hInv) hInv.processedSub k e he het hnpsrc
            omega
          obtain ⟨hstab, _⟩ := runLoop_stable_processed E nodes edges prev (g + 1) s u hInv h
            e.source hsrcp
          have hsome_s : (lookupRec s.nodeResults e.source).isSome = true := by
            rw [← hstab]
            exact hesome
          have hincoming : e ∈ stepIncoming s k := by
            unfold stepIncoming
            rw [hInv.frameEdges]
            exact List.mem_filter.mpr ⟨he, by simp [het]⟩
          have hinputs : stepInputs s k ≠ [] := by
            unfold stepInputs
            intro hnil
            obtain ⟨v, hv⟩ := Option.isSome_iff_exists.mp hsome_s
            have hmem : v ∈ (stepIncoming s k).filterMap
                (fun e => lookupRec s.nodeResults e.source) :=
              List.mem_filterMap.mpr ⟨e, hincoming, hv⟩
            rw [hnil] at hmem
            cases hmem
          have hinlen : 0 < (stepIncoming s k).length :=
            List.length_pos.mpr (List.ne_nil_of_mem hincoming)
          have hdata : (stepInputData s k node).isSome := by
            unfold stepInputData
            rw [if_pos hinlen]
            exact aggregateInputs_isSome _ hinputs
          rcases stepNR_cases E s k node nr2 hnr with ⟨hnone, _⟩ | ⟨v, out, _, _, hnr2⟩
          · rw [hnone] at hdata
            cases hdata
          · have hsome2 : (lookupRec s2.nodeResults k).isSome := by
              rw [hs']
              show (lookupRec nr2 k).isSome
              rw [hnr2, lookupRec_setEntry_self]
              rfl
            exact runLoop_isSome_mono E g s2 u hrun2 k hsome2
      · have hnp2 : id ∉ s2.processed := by
          rcases step_cases E s s2 k rest hq hs2 with ⟨_, hs'⟩ | ⟨node, nr2, _, _, hs'⟩
          · subst hs'
            exact hnp
          · subst hs'
            intro hmem
            rcases List.mem_append.mp hmem with hmm | hmm
            · exact hnp hmm
            · exact hk (List.mem_singleton.mp hmm).symm
        exact ih s2 u hInv2 hrun2 id hid hnp2 hex hup

theorem runLoop_some_queue_nil (E : RegexEngine) :
    ∀ (fuel : Nat) (s u : EngineState), runLoop E fuel s = some u → u.queue = [] := by
  intro fuel
  induction fuel with
  | zero =>
    intro s u h
    unfold runLoop at h
    split at h
    · cases h
      assumption
    · cases h
  | succ g ih =>
    intro s u h
    unfold runLoop at h
    split at h
    · cases h
      assumption
    · revert h
      cases hs : step E s with
      | none => intro h; cases h
      | some s2 => exact fun h => ih s2 u h

theorem lookupRec_setEntry_isSome_mono {α : Type} (m : List (String × α)) (k id : String)
    (v : α) (h : (lookupRec m id).isSome) : (lookupRec (setEntry m k v) id).isSome := by
  by_cases hk : id = k
  · subst hk
    rw [lookupRec_setEntry_self]
    rfl
  · rw [lookupRec_setEntry_ne m k id v hk]
    exact h

theorem seedFold_isSome_mono (l : List AppNode) :
    ∀ (m0 : List (String × Value)) (id : String), (lookupRec m0 id).isSome →
      (lookupRec (l.foldl (fun m n =>
        if n.data.type = NodeType.INPUT ∨ n.data.type = NodeType.EMITTER then
          setEntry m n.id (.vstr (jsOrEmptyStr (n.data.params.bind Params.pattern)))
        else m) m0) id).isSome := by
  induction l with
  | nil => intro m0 id h; exact h
  | cons n rest ih =>
    intro m0 id h
    simp only [List.foldl_cons]
    by_cases ht : n.data.type = NodeType.INPUT ∨ n.data.type = NodeType.EMITTER
    · rw [if_pos ht]
      exact ih _ id (lookupRec_setEntry_isSome_mono m0 n.id id _ h)
    · rw [if_neg ht]
      exact ih _ id h

theorem seedResults_isSome (nodes : List AppNode) (n : AppNode) (hmem : n ∈ nodes)
    (ht : n.data.type = NodeType.INPUT ∨ n.data.type = NodeType.EMITTER) :
    (lookupRec (seedResults nodes) n.id).isSome := by
  have hgen : ∀ (l : List AppNode) (m0 : List (String × Value)), n ∈ l →
      (lookupRec (l.foldl (fun m x =>
        if x.data.type = NodeType.INPUT ∨ x.data.type = NodeType.EMITTER then
          setEntry m x.id (.vstr (jsOrEmptyStr (x.data.params.bind Params.pattern)))
        else m) m0) n.id).isSome := by
    intro l
    induction l with
    | nil => intro m0 h; cases h
    | cons m rest ih =>
      intro m0 hmem2
      simp only [List.foldl_cons]
      rcases List.mem_cons.mp hmem2 with hcase | hcase
      · subst hcase
        rw [if_pos ht]
        exact seedFold_isSome_mono rest _ n.id
          (by rw [lookupRec_setEntry_self]; rfl)
      · by_cases htm : m.data.type = NodeType.INPUT ∨ m.data.type = NodeType.EMITTER
        · rw [if_pos htm]
          exact ih _ hcase
        · rw [if_neg htm]
          exact ih _ hcase
  exact hgen nodes [] hmem

theorem lookupRec_isSome_of_countEntries_pos {α : Type} (m : List (String × α)) (id : String)
    (h : 0 < countEntries m id) : (lookupRec m id).isSome := by
  induction m with
  | nil => simp [countEntries] at h
  | cons p rest ih =>
    by_cases hk : p.1 = id
    · simp [lookupRec, hk]
    · have hcnt : countEntries rest id = countEntries (p :: rest) id := by
        simp [countEntries, List.filter_cons, hk]
      rw [lookupRec, if_neg hk]
      exact ih (by omega)

/-- C1 (amended): for every acyclic graph with distinct node ids and edges
referencing existing nodes, and every previous-output map, after one
`executeFlow` call every node id has at most one entry in the returned
node-output map; every node reachable from some zero-in-degree node (under
these hypotheses, every node) has exactly one entry provided it is an
INPUT or EMITTER node (whose seeded entry survives) or some incoming
edge's source has an entry in the returned map (so an input value was
produced when it was dequeued); and every node lying inside a directed
cycle — there are none in an acyclic graph — has no entry.  (As stated the
claim is false: a dequeued node for which no input value is produced, such
as an isolated PROCESS node, receives no entry; see the counterexample.) -/
theorem C1_node_outputs (E : RegexEngine) (nodes : List AppNode) (edges : List AppEdge)
    (prev : List (String × Value)) (res : FlowExecutionResult)
    (hN : (idsOf nodes).Nodup) (hV : ValidEdges nodes edges) (hA : AcyclicEdges edges)
    (hex : executeFlow E nodes edges prev = some res) :
    (∀ id, countEntries res.nodeResults id ≤ 1) ∧
    (∀ n ∈ nodes, ReachesFromZeroInDeg nodes edges n.id →
      ((n.data.type = NodeType.INPUT ∨ n.data.type = NodeType.EMITTER) ∨
        (∃ e ∈ edges, e.target = n.id ∧ (lookupRec res.nodeResults e.source).isSome)) →
      countEntries res.nodeResults n.id = 1) ∧
    (∀ n ∈ nodes, Relation.TransGen (EdgeRel edges) n.id n.id →
      lookupRec res.nodeResults n.id = none) := by
  unfold executeFlow at hex
  rcases Option.map_eq_some'.mp hex with ⟨u, hu, hres⟩
  have hresn : res.nodeResults = u.nodeResults := by rw [← hres]
  have hInvU : KahnInv nodes edges prev u :=
    KahnInv_runLoop E nodes edges prev _ _ u (KahnInv_init nodes edges prev hN) hu
  have hqU : u.queue = [] := runLoop_some_queue_nil E _ _ u hu
  refine ⟨?_, ?_, ?_⟩
  · intro id
    rw [hresn]
    exact countEntries_le_one u.nodeResults id hInvU.nrKeys
  · intro n hn _ hcase
    have hidin : n.id ∈ idsOf nodes := List.mem_map.mpr ⟨n, hn, rfl⟩
    have hsome : (lookupRec u.nodeResults n.id).isSome := by
      rcases hcase with hsrc | hedge
      · refine runLoop_isSome_mono E _ _ u hu n.id ?_
        show (lookupRec (seedResults nodes) n.id).isSome
        exact seedResults_isSome nodes n hn hsrc
      · have hpro : n.id ∈ u.processed :=
          final_all_processed nodes edges prev u hV hA hInvU hqU n.id hidin
        refine runLoop_entry E nodes edges prev _ _ u
          (KahnInv_init nodes edges prev hN) hu n.id hidin ?_ ?_ hpro
        · intro hmem
          cases hmem
        · rw [hresn] at hedge
          exact hedge
    rw [hresn, countEntries_eq u.nodeResults n.id hInvU.nrKeys, if_pos hsome]
  · intro n _ hcyc
    exact absurd hcyc (hA n.id)

/-- Witness for C1 on a concrete valid acyclic graph (a source feeding a
grep node): both nodes end up with exactly one entry. -/
theorem C1_node_outputs_witness :
    countEntries ((executeFlow noRegex [fxInput "a" "hi", fxProcess "b" ProcessType.GREP
      (some "h")] [fxEdge "e" "a" "b"] []).getD ⟨[], []⟩).nodeResults "b" = 1 := by
  have hrank : AcyclicEdges [fxEdge "e" "a" "b"] := by
    intro id hcyc
    have hstep : ∀ a b, EdgeRel [fxEdge "e" "a" "b"] a b → a = "a" ∧ b = "b" := by
      intro a b ⟨e, he, hs, ht⟩
      rcases List.mem_singleton.mp he with rfl
      exact ⟨hs.symm, ht.symm⟩
    have hchain : ∀ a b, Relation.TransGen (EdgeRel [fxEdge "e" "a" "b"]) a b →
        a = "a" ∧ b = "b" := by
      intro a b h
      induction h with
      | single h => exact hstep _ _ h
      | tail _ hlast ihab =>
        obtain ⟨ha, _⟩ := ihab
        obtain ⟨hb2, hc⟩ := hstep _ _ hlast
        exact ⟨ha, hc⟩
    obtain ⟨h1, h2⟩ := hchain id id hcyc
    rw [h1] at h2
    exact absurd h2 (by decide)
  cases hex : executeFlow noRegex [fxInput "a" "hi", fxProcess "b" ProcessType.GREP (some "h")]
      [fxEdge "e" "a" "b"] [] with
  | none => exact absurd hex (by decide)
  | some res =>
    have hmain := C1_node_outputs noRegex
      [fxInput "a" "hi", fxProcess "b" ProcessType.GREP (some "h")] [fxEdge "e" "a" "b"] []
      res (by decide) (by intro e he; fin_cases he; simp [fxEdge, idsOf, fxInput, fxProcess])
      hrank hex
    have ha := hmain.2.1 (fxInput "a" "hi") (by simp)
      ⟨fxInput "a" "hi", by simp, by decide, Relation.ReflTransGen.refl⟩
      (Or.inl (Or.inl rfl))
    have ha2 : countEntries res.nodeResults "a" = 1 := by simpa [fxInput] using ha
    have hasome : (lookupRec res.nodeResults "a").isSome :=
      lookupRec_isSome_of_countEntries_pos res.nodeResults "a" (by omega)
    have hb := hmain.2.1 (fxProcess "b" ProcessType.GREP (some "h")) (by simp)
      ⟨fxInput "a" "hi", by simp, by decide,
        Relation.ReflTransGen.single ⟨fxEdge "e" "a" "b", by simp, rfl, rfl⟩⟩
      (Or.inr ⟨fxEdge "e" "a" "b", by simp, rfl, hasome⟩)
    simpa [hex] using hb

/-- C1 counterexample: a single PROCESS node with no edges is an acyclic
graph whose edges (there are none) all reference existing nodes, and the
node is reachable from a zero-in-degree node (itself); it is dequeued, but
since no input value is produced for it, the returned node-output map has
no entry for it — not exactly one. -/
theorem C1_counterexample :
    executeFlow noRegex [fxProcess "p" ProcessType.GREP (some "x")] [] [] =
      some ⟨[], []⟩ ∧
    lookupRec (initInDeg [fxProcess "p" ProcessType.GREP (some "x")] []) "p" = some 0 ∧
    countEntries (([] : List (String × Value))) "p" = 0 := by
  exact ⟨by decide, by decide, by decide⟩

/-! ### Claim C3: sequence-matcher progress -/

theorem dispatchNode_seq (E : RegexEngine) (node : AppNode) (prev : List (String × Value))
    (v : Value) (h : node.data.type = NodeType.SEQUENCE) :
    dispatchNode E node prev v =
      some (runSequence (jsOrEmptyStr (node.data.params.bind Params.pattern))
        (lookupRec prev node.id) v) := by
  unfold dispatchNode
  rw [h]
  have h1 : ¬(NodeType.SEQUENCE = NodeType.PROCESS ∨ NodeType.SEQUENCE = NodeType.BRANCH) := by
    decide
  have h2 : ¬(NodeType.SEQUENCE = NodeType.BATCH) := by decide
  have h3 : ¬(NodeType.SEQUENCE = NodeType.MERGE) := by decide
  rw [if_neg h1, if_neg h2, if_neg h3, if_pos rfl]

theorem runSequenceStr_shape (t p : String) (input : Value) :
    ∃ q : String, runSequenceStr t p input = .vstr q ∧ p.length ≤ q.length ∧
      q.length ≤ max p.length t.length ∧ (t.length ≤ p.length → q = p) := by
  unfold runSequenceStr
  by_cases hlt : p.length < t.length
  · rw [if_pos hlt]
    by_cases hin : (seqInputStr input).data.contains (charAtD t.data p.length)
    · rw [if_pos hin]
      have hp : (String.mk (p.data ++ [charAtD t.data p.length])).length =
          p.length + 1 := by
        rw [String.length, String.length]
        simp
      refine ⟨_, rfl, ?_, ?_, ?_⟩
      · show p.length ≤ (String.mk (p.data ++ [charAtD t.data p.length])).length
        rw [hp]
        omega
      · show (String.mk (p.data ++ [charAtD t.data p.length])).length ≤ _
        rw [hp]
        omega
      · intro hc
        omega
    · rw [if_neg hin]
      exact ⟨p, rfl, le_refl _, le_max_left _ _, fun _ => rfl⟩
  · rw [if_neg hlt]
    exact ⟨p, rfl, le_refl _, le_max_left _ _, fun _ => rfl⟩

theorem seedResults_lookup_none (nodes : List AppNode) (id : String)
    (h : ∀ n ∈ nodes, n.id = id →
      ¬(n.data.type = NodeType.INPUT ∨ n.data.type = NodeType.EMITTER)) :
    lookupRec (seedResults nodes) id = none := by
  have hgen : ∀ (l : List AppNode) (m0 : List (String × Value)),
      (∀ n ∈ l, n.id = id →
        ¬(n.data.type = NodeType.INPUT ∨ n.data.type = NodeType.EMITTER)) →
      lookupRec m0 id = none →
      lookupRec (l.foldl (fun m x =>
        if x.data.type = NodeType.INPUT ∨ x.data.type = NodeType.EMITTER then
          setEntry m x.id (.vstr (jsOrEmptyStr (x.data.params.bind Params.pattern)))
        else m) m0) id = none := by
    intro l
    induction l with
    | nil => intro m0 _ hm0; exact hm0
    | cons n rest ih =>
      intro m0 hl hm0
      simp only [List.foldl_cons]
      by_cases ht : n.data.type = NodeType.INPUT ∨ n.data.type = NodeType.EMITTER
      · rw [if_pos ht]
        have hne : id ≠ n.id := by
          intro he
          exact hl n (List.mem_cons_self n rest) he.symm ht
        refine ih _ (fun x hx => hl x (List.mem_cons_of_mem n hx)) ?_
        rw [lookupRec_setEntry_ne m0 n.id id _ hne]
        exact hm0
      · rw [if_neg ht]
        exact ih _ (fun x hx => hl x (List.mem_cons_of_mem n hx)) hm0
  exact hgen nodes [] h (by rfl)

theorem runLoop_seq_writes (E : RegexEngine) (nodes : List AppNode) (edges : List AppEdge)
    (prev : List (String × Value)) (n : AppNode) (hN : (idsOf nodes).Nodup)
    (hmem : n ∈ nodes) :
    ∀ (fuel : Nat) (s u : EngineState), KahnInv nodes edges prev s →
      (∀ v, lookupRec s.nodeResults n.id = some v →
        ∃ input, v = runSequence (jsOrEmptyStr (n.data.params.bind Params.pattern))
          (lookupRec prev n.id) input ∨ n.data.type ≠ NodeType.SEQUENCE) →
      runLoop E fuel s = some u →
      ∀ v, lookupRec u.nodeResults n.id = some v →
        ∃ input, v = runSequence (jsOrEmptyStr (n.data.params.bind Params.pattern))
          (lookupRec prev n.id) input ∨ n.data.type ≠ NodeType.SEQUENCE := by
  intro fuel
  induction fuel with
  | zero =>
    intro s u _ hW h
    unfold runLoop at h
    split at h
    · cases h; exact hW
    · cases h
  | succ g ih =>
    intro s u hInv hW h
    unfold runLoop at h
    split at h
    · cases h; exact hW
    · rename_i k rest hq
      revert h
      cases hs : step E s with
      | none => intro h; cases h
      | some s2 =>
        intro h
        refine ih s2 u (KahnInv_step E nodes edges prev s s2 hInv hs) ?_ h
        intro v hv
        rcases step_cases E s s2 k rest hq hs with ⟨_, hs2⟩ | ⟨node, nr2, hfind, hnr, hs2⟩
        · subst hs2
          exact hW v hv
        · subst hs2
          rcases stepNR_cases E s k node nr2 hnr with ⟨_, hnr2⟩ | ⟨w, out, hw, hout, hnr2⟩
          · rw [hnr2] at hv
            exact hW v hv
          · by_cases hk : n.id = k
            · subst hk
              rw [hInv.frameNodes] at hfind
              have hfn : nodes.find? (fun x => x.id == n.id) = some n :=
                find?_of_nodup nodes n hN hmem
              rw [hfn] at hfind
              cases hfind
              by_cases hseq : n.data.type = NodeType.SEQUENCE
              · rw [hInv.framePrev, dispatchNode_seq E n prev w hseq] at hout
                rw [hnr2, lookupRec_setEntry_self] at hv
                cases hv
                cases hout
                exact ⟨w, Or.inl rfl⟩
              · exact ⟨.vstr "", Or.inr hseq⟩
            · rw [hnr2, lookupRec_setEntry_ne _ k n.id _ hk] at hv
              exact hW v hv

/-- C3 (amended): for a SEQUENCE node (in a graph with distinct node ids)
whose carried previous progress is the string `p`, any progress value the
pass records for it is a string `q` with `p.length ≤ q.length` (progress
never shrinks), `q.length ≤ max p.length target.length` (it never grows
past the target, though a previous value already longer than the target is
kept as is — the claim's unconditional bound `q.length ≤ target.length` is
false, see the counterexample), and once `target.length ≤ p.length` the
value is kept unchanged (`q = p`) whatever the input buffer holds. -/
theorem C3_sequence_progress (E : RegexEngine) (nodes : List AppNode) (edges : List AppEdge)
    (prev : List (String × Value)) (res : FlowExecutionResult) (n : AppNode) (p : String)
    (hN : (idsOf nodes).Nodup) (hmem : n ∈ nodes) (hseq : n.data.type = NodeType.SEQUENCE)
    (hprev : lookupRec prev n.id = some (.vstr p))
    (hex : executeFlow E nodes edges prev = some res)
    (v : Value) (hv : lookupRec res.nodeResults n.id = some v) :
    ∃ q : String, v = .vstr q ∧ p.length ≤ q.length ∧
      q.length ≤ max p.length (jsOrEmptyStr (n.data.params.bind Params.pattern)).length ∧
      ((jsOrEmptyStr (n.data.params.bind Params.pattern)).length ≤ p.length → q = p) := by
  unfold executeFlow at hex
  rcases Option.map_eq_some'.mp hex with ⟨u, hu, hres⟩
  have hresn : res.nodeResults = u.nodeResults := by rw [← hres]
  have hseed : lookupRec (seedResults nodes) n.id = none := by
    refine seedResults_lookup_none nodes n.id ?_
    intro n' hn' hid hsrc
    have hn'n : n' = n := List.inj_on_of_nodup_map (by simpa [idsOf] using hN) hn' hmem hid
    subst hn'n
    rw [hseq] at hsrc
    rcases hsrc with hc | hc <;> cases hc
  have hwrite := runLoop_seq_writes E nodes edges prev n hN hmem _ _ u
    (KahnInv_init nodes edges prev hN)
    (by
      intro w hw
      have hw2 : lookupRec (seedResults nodes) n.id = some w := hw
      rw [hseed] at hw2
      cases hw2)
    hu v (by rw [← hresn]; exact hv)
  rcases hwrite with ⟨input, hval | hns⟩
  · rw [hprev] at hval
    have hshape := runSequenceStr_shape (jsOrEmptyStr (n.data.params.bind Params.pattern))
      p input
    rcases hshape with ⟨q, hq, h1, h2, h3⟩
    refine ⟨q, ?_, h1, h2, h3⟩
    rw [hval]
    show runSequenceStr _ p input = _
    exact hq
  · exact absurd hseq hns

/-- Witness for C3: a source feeding a SEQUENCE node with target "xyz" and
previous progress "x"; the recorded progress is a string of length between
1 and 3, and had the previous progress already covered the target it would
be kept. -/
theorem C3_sequence_progress_witness :
    ∃ q : String, Value.vstr "xy" = .vstr q ∧ ("x").length ≤ q.length ∧
      q.length ≤ max ("x").length (jsOrEmptyStr ((fxSeq "s" "xyz").data.params.bind
        Params.pattern)).length ∧
      ((jsOrEmptyStr ((fxSeq "s" "xyz").data.params.bind Params.pattern)).length ≤
        ("x").length → q = "x") := by
  have hex : executeFlow noRegex [fxInput "z" "xy", fxSeq "s" "xyz"] [fxEdge "e" "z" "s"]
      [("s", Value.vstr "x")] = some ⟨[("z", Value.vstr "xy"), ("s", Value.vstr "xy")],
        [("e", some (Value.vstr "xy"))]⟩ := by decide
  exact C3_sequence_progress noRegex [fxInput "z" "xy", fxSeq "s" "xyz"] [fxEdge "e" "z" "s"]
    [("s", Value.vstr "x")] ⟨[("z", Value.vstr "xy"), ("s", Value.vstr "xy")],
      [("e", some (Value.vstr "xy"))]⟩ (fxSeq "s" "xyz") "x" (by decide) (by simp)
    (by decide) (by decide) hex (Value.vstr "xy") (by decide)

/-- C3 counterexample: with target pattern "a" (length 1) and a carried
previous progress "xyz" (length 3), the pass records progress "xyz" of
length 3 > 1 — the claimed bound `progress length ≤ target length` fails
when the previous progress already exceeds the target. -/
theorem C3_counterexample :
    executeFlow noRegex [fxInput "z" "q", fxSeq "s" "a"] [fxEdge "e" "z" "s"]
      [("s", Value.vstr "xyz")] = some ⟨[("z", Value.vstr "q"), ("s", Value.vstr "xyz")],
        [("e", some (Value.vstr "q"))]⟩ ∧
    (jsOrEmptyStr ((fxSeq "s" "a").data.params.bind Params.pattern)).length <
      ("xyz" : String).length := by
  exact ⟨by decide, by decide⟩

/-! ### Claim C10: source nodes pass an aggregated upstream input through -/

theorem dispatchNode_source (E : RegexEngine) (node : AppNode) (prev : List (String × Value))
    (v : Value) (h : node.data.type = NodeType.INPUT ∨ node.data.type = NodeType.EMITTER) :
    dispatchNode E node prev v = some v := by
  unfold dispatchNode
  rcases h with h | h
  · rw [h]
    have h1 : ¬(NodeType.INPUT = NodeType.PROCESS ∨ NodeType.INPUT = NodeType.BRANCH) := by
      decide
    have h2 : ¬(NodeType.INPUT = NodeType.BATCH) := by decide
    have h3 : ¬(NodeType.INPUT = NodeType.MERGE) := by decide
    have h4 : ¬(NodeType.INPUT = NodeType.SEQUENCE) := by decide
    have h5 : ¬(NodeType.INPUT = NodeType.OUTPUT) := by decide
    rw [if_neg h1, if_neg h2, if_neg h3, if_neg h4, if_neg h5]
  · rw [h]
    have h1 : ¬(NodeType.EMITTER = NodeType.PROCESS ∨ NodeType.EMITTER = NodeType.BRANCH) := by
      decide
    have h2 : ¬(NodeType.EMITTER = NodeType.BATCH) := by decide
    have h3 : ¬(NodeType.EMITTER = NodeType.MERGE) := by decide
    have h4 : ¬(NodeType.EMITTER = NodeType.SEQUENCE) := by decide
    have h5 : ¬(NodeType.EMITTER = NodeType.OUTPUT) := by decide
    rw [if_neg h1, if_neg h2, if_neg h3, if_neg h4, if_neg h5]

theorem seedResults_lookup_val (nodes : List AppNode) (n : AppNode)
    (huniq : ∀ n' ∈ nodes, n'.id = n.id → n' = n) (hmem : n ∈ nodes)
    (ht : n.data.type = NodeType.INPUT ∨ n.data.type = NodeType.EMITTER) :
    lookupRec (seedResults nodes) n.id =
      some (.vstr (jsOrEmptyStr (n.data.params.bind Params.pattern))) := by
  have hgen : ∀ (l : List AppNode) (m0 : List (String × Value)),
      (∀ n' ∈ l, n'.id = n.id → n' = n) →
      (n ∈ l ∨ lookupRec m0 n.id =
        some (.vstr (jsOrEmptyStr (n.data.params.bind Params.pattern)))) →
      lookupRec (l.foldl (fun m x =>
        if x.data.type = NodeType.INPUT ∨ x.data.type = NodeType.EMITTER then
          setEntry m x.id (.vstr (jsOrEmptyStr (x.data.params.bind Params.pattern)))
        else m) m0) n.id =
        some (.vstr (jsOrEmptyStr (n.data.params.bind Params.pattern))) := by
    intro l
    induction l with
    | nil =>
      intro m0 _ hd
      rcases hd with hd | hd
      · cases hd
      · exact hd
    | cons x rest ih =>
      intro m0 hu hd
      simp only [List.foldl_cons]
      by_cases hx : x.id = n.id
      · have hxn : x = n := hu x (List.mem_cons_self x rest) hx
        subst hxn
        rw [if_pos ht]
        refine ih _ (fun y hy => hu y (List.mem_cons_of_mem x hy)) (Or.inr ?_)
        rw [lookupRec_setEntry_self]
      · rcases hd with hd | hd
        · rcases List.mem_cons.mp hd with he | he
          · exact absurd (congrArg AppNode.id he.symm) hx
          · by_cases hty : x.data.type = NodeType.INPUT ∨ x.data.type = NodeType.EMITTER
            · rw [if_pos hty]
              exact ih _ (fun y hy => hu y (List.mem_cons_of_mem x hy)) (Or.inl he)
            · rw [if_neg hty]
              exact ih _ (fun y hy => hu y (List.mem_cons_of_mem x hy)) (Or.inl he)
        · by_cases hty : x.data.type = NodeType.INPUT ∨ x.data.type = NodeType.EMITTER
          · rw [if_pos hty]
            refine ih _ (fun y hy => hu y (List.mem_cons_of_mem x hy)) (Or.inr ?_)
            rw [lookupRec_setEntry_ne _ _ _ _ (fun hc => hx hc.symm)]
            exact hd
          · rw [if_neg hty]
            exact ih _ (fun y hy => hu y (List.mem_cons_of_mem x hy)) (Or.inr hd)
  exact hgen nodes [] huniq (Or.inl hmem)

theorem runLoop_source_value (E : RegexEngine) (nodes : List AppNode) (edges : List AppEdge)
    (prev : List (String × Value)) (n : AppNode) (hN : (idsOf nodes).Nodup)
    (hmem : n ∈ nodes)
    (hsrc : n.data.type = NodeType.INPUT ∨ n.data.type = NodeType.EMITTER) :
    ∀ (fuel : Nat) (s u : EngineState), KahnInv nodes edges prev s →
      runLoop E fuel s = some u → n.id ∉ s.processed → n.id ∈ u.processed →
      lookupRec u.nodeResults n.id =
        if 0 < (edges.filter (fun e => e.target == n.id)).length then
          match aggregateInputs ((edges.filter (fun e => e.target == n.id)).filterMap
              (fun e => lookupRec u.nodeResults e.source)) with
          | some v => some v
          | none => lookupRec (seedResults nodes) n.id
        else lookupRec (seedResults nodes) n.id := by
  intro fuel
  induction fuel with
  | zero =>
    intro s u _ h hnp hup
    unfold runLoop at h
    split at h
    · cases h
      exact absurd hup hnp
    · cases h
  | succ g ih =>
    intro s u hInv h hnp hup
    cases hq : s.queue with
    | nil =>
      unfold runLoop at h
      rw [hq] at h
      dsimp only at h
      cases h
      exact absurd hup hnp
    | cons k rest =>
      have hstep : ∃ s2, step E s = some s2 ∧ runLoop E g s2 = some u := by
        unfold runLoop at h
        rw [hq] at h
        dsimp only at h
        revert h
        cases hs : step E s with
        | none => intro h; cases h
        | some s2 => exact fun h => ⟨s2, rfl, h⟩
      obtain ⟨s2, hs2, hrun2⟩ := hstep
      have hInv2 := KahnInv_step E nodes edges prev s s2 hInv hs2
      by_cases hk : k = n.id
      · subst hk
        rcases step_cases E s s2 n.id rest hq hs2 with ⟨hfindn, _⟩ | ⟨node, nr2, hfind, hnr, hs'⟩
        · rw [hInv.frameNodes] at hfindn
          exact absurd (List.mem_map.mpr ⟨n, hmem, rfl⟩)
            ((find?_eq_none_iff_not_mem nodes n.id).mp hfindn)
        · have hfind' := hfind
          rw [hInv.frameNodes, find?_of_nodup nodes n hN hmem] at hfind'
          cases hfind'
          have hproc2 : n.id ∈ s2.processed := by
            rw [hs']
            exact List.mem_append.mpr (Or.inr (List.mem_singleton.mpr rfl))
          have hinceq : stepIncoming s n.id = edges.filter (fun e => e.target == n.id) := by
            unfold stepIncoming
            rw [hInv.frameEdges]
          by_cases hinc : 0 < (edges.filter (fun e => e.target == n.id)).length
          · rw [if_pos hinc]
            have hid : n.id ∈ idsOf nodes := List.mem_map.mpr ⟨n, hmem, rfl⟩
            obtain ⟨e0, he0f⟩ := List.exists_mem_of_length_pos hinc
            obtain ⟨he0, he0t⟩ := List.mem_filter.mp he0f
            have he0t' : e0.target = n.id := by simpa using he0t
            have hcnt := hInv.cntEq n.id hid
            have hq1 : 1 ≤ s.queue.count n.id := by
              rw [hq]
              simp [List.count_cons]
            have htc1 : 1 ≤ targetCount edges n.id :=
              targetCount_pos_of_mem edges e0 he0 n.id he0t'
            have hbr : targetCount edges n.id ≤ deliveredTo nodes edges s.processed n.id := by
              by_contra hlt
              have hb1 : (if targetCount edges n.id = 0 then (1 : Nat) else 0) = 0 := by
                have hc : ¬ targetCount edges n.id = 0 := by omega
                rw [if_neg hc]
              have hb2 : (if 0 < targetCount edges n.id ∧
                  targetCount edges n.id ≤ deliveredTo nodes edges s.processed n.id
                  then (1 : Nat) else 0) = 0 := by
                have hc : ¬ (0 < targetCount edges n.id ∧
                    targetCount edges n.id ≤ deliveredTo nodes edges s.processed n.id) :=
                  fun hc => hlt hc.2
                rw [if_neg hc]
              rw [hb1, hb2] at hcnt
              omega
            have hallp : ∀ e ∈ edges.filter (fun e => e.target == n.id),
                e.source ∈ s.processed := by
              intro e hef
              obtain ⟨he, het⟩ := List.mem_filter.mp hef
              have het' : e.target = n.id := by simpa using het
              by_contra hnpsrc
              have := deliveredTo_lt nodes edges s.processed
                (processed_nodup nodes edges prev s hInv) hInv.processedSub n.id e he het'
                hnpsrc
              omega
            have hstable : ∀ e ∈ edges.filter (fun e => e.target == n.id),
                lookupRec u.nodeResults e.source = lookupRec s.nodeResults e.source := by
              intro e hef
              exact (runLoop_stable_processed E nodes edges prev (g + 1) s u hInv h
                e.source (hallp e hef)).1
            have hinputs : (edges.filter (fun e => e.target == n.id)).filterMap
                (fun e => lookupRec u.nodeResults e.source) = stepInputs s n.id := by
              unfold stepInputs
              rw [hinceq]
              exact List.filterMap_congr (fun e he => by rw [hstable e he])
            have hdata : stepInputData s n.id n = aggregateInputs
                ((edges.filter (fun e => e.target == n.id)).filterMap
                  (fun e => lookupRec u.nodeResults e.source)) := by
              unfold stepInputData
              rw [hinceq, if_pos hinc, hinputs]
            rcases stepNR_cases E s n.id n nr2 hnr with ⟨hnone, hnr2⟩ |
              ⟨w, out, hw, hout, hnr2⟩
            · rw [hnone] at hdata
              rw [← hdata]
              have hseed := hInv.unwritten n.id hnp
              have hs2val : lookupRec s2.nodeResults n.id = lookupRec s.nodeResults n.id := by
                rw [hs']
                show lookupRec nr2 n.id = _
                rw [hnr2]
              have := (runLoop_stable_processed E nodes edges prev g s2 u hInv2 hrun2
                n.id hproc2).1
              rw [this, hs2val, hseed]
            · rw [hw] at hdata
              rw [← hdata]
              rw [dispatchNode_source E n s.prevNodeResults w hsrc] at hout
              cases hout
              have hs2val : lookupRec s2.nodeResults n.id = some w := by
                rw [hs']
                show lookupRec nr2 n.id = _
                rw [hnr2, lookupRec_setEntry_self]
              have := (runLoop_stable_processed E nodes edges prev g s2 u hInv2 hrun2
                n.id hproc2).1
              rw [this, hs2val]
          · rw [if_neg hinc]
            have hlen0 : (stepIncoming s n.id).length = 0 := by
              rw [hinceq]
              omega
            have hdata : stepInputData s n.id n = lookupRec s.nodeResults n.id := by
              unfold stepInputData
              have hc : ¬ (stepIncoming s n.id).length > 0 := by omega
              rw [if_neg hc, if_pos hsrc]
            have hseed := hInv.unwritten n.id hnp
            rcases stepNR_cases E s n.id n nr2 hnr with ⟨hnone, hnr2⟩ |
              ⟨w, out, hw, hout, hnr2⟩
            · have hs2val : lookupRec s2.nodeResults n.id = lookupRec s.nodeResults n.id := by
                rw [hs']
                show lookupRec nr2 n.id = _
                rw [hnr2]
              have := (runLoop_stable_processed E nodes edges prev g s2 u hInv2 hrun2
                n.id hproc2).1
              rw [this, hs2val, hseed]
            · rw [hw, hseed] at hdata
              rw [dispatchNode_source E n s.prevNodeResults w hsrc] at hout
              cases hout
              have hs2val : lookupRec s2.nodeResults n.id = some w := by
                rw [hs']
                show lookupRec nr2 n.id = _
                rw [hnr2, lookupRec_setEntry_self]
              have := (runLoop_stable_processed E nodes edges prev g s2 u hInv2 hrun2
                n.id hproc2).1
              rw [this, hs2val, hdata]
      · have hnp2 : n.id ∉ s2.processed := by
          rcases step_cases E s s2 k rest hq hs2 with ⟨_, hs'⟩ | ⟨node, nr2, _, _, hs'⟩
          · subst hs'
            exact hnp
          · subst hs'
            intro hmem2
            rcases List.mem_append.mp hmem2 with hmm | hmm
            · exact hnp hmm
            · exact hk (List.mem_singleton.mp hmm).symm
        exact ih s2 u hInv2 hrun2 hnp2 hup

/-- C10 (amended): in a graph with distinct node ids, edges referencing
existing nodes and no directed cycle, a source node (INPUT or EMITTER)
with at least one incoming edge ends the pass holding the aggregation of
its incoming edges' resolved final outputs when that aggregation produces
a value (the seeded pattern is discarded; pass-through of the upstream
input), and otherwise — no incoming edge's source produced an output —
keeps the value seeded from its pattern parameter (empty string when
absent); a source node with no incoming edges always keeps the seeded
value.  The claim's "only when the node has zero incoming edges" clause is
false: a source node whose sole incoming edge's source never produced an
output also keeps its seeded pattern, see the counterexample. -/
theorem C10_source_passthrough (E : RegexEngine) (nodes : List AppNode)
    (edges : List AppEdge) (prev : List (String × Value)) (res : FlowExecutionResult)
    (n : AppNode) (hN : (idsOf nodes).Nodup) (hV : ValidEdges nodes edges)
    (hA : AcyclicEdges edges) (hex : executeFlow E nodes edges prev = some res)
    (hmem : n ∈ nodes)
    (hsrc : n.data.type = NodeType.INPUT ∨ n.data.type = NodeType.EMITTER) :
    ((∃ e ∈ edges, e.target = n.id) →
      lookupRec res.nodeResults n.id =
        match aggregateInputs ((edges.filter (fun e => e.target == n.id)).filterMap
            (fun e => lookupRec res.nodeResults e.source)) with
        | some v => some v
        | none => some (.vstr (jsOrEmptyStr (n.data.params.bind Params.pattern)))) ∧
    ((∀ e ∈ edges, e.target ≠ n.id) →
      lookupRec res.nodeResults n.id =
        some (.vstr (jsOrEmptyStr (n.data.params.bind Params.pattern)))) := by
  unfold executeFlow at hex
  rcases Option.map_eq_some'.mp hex with ⟨u, hu, hres⟩
  have hresn : res.nodeResults = u.nodeResults := by rw [← hres]
  have hInvU : KahnInv nodes edges prev u :=
    KahnInv_runLoop E nodes edges prev _ _ u (KahnInv_init nodes edges prev hN) hu
  have hqU : u.queue = [] := runLoop_some_queue_nil E _ _ u hu
  have hid : n.id ∈ idsOf nodes := List.mem_map.mpr ⟨n, hmem, rfl⟩
  have hpro : n.id ∈ u.processed :=
    final_all_processed nodes edges prev u hV hA hInvU hqU n.id hid
  have hval := runLoop_source_value E nodes edges prev n hN hmem hsrc _ _ u
    (KahnInv_init nodes edges prev hN) hu (fun hc => by cases hc) hpro
  have hseedval : lookupRec (seedResults nodes) n.id =
      some (.vstr (jsOrEmptyStr (n.data.params.bind Params.pattern))) :=
    seedResults_lookup_val nodes n
      (fun n' hn' hi => List.inj_on_of_nodup_map (by simpa [idsOf] using hN) hn' hmem hi)
      hmem hsrc
  rw [hseedval] at hval
  constructor
  · intro ⟨e, he, het⟩
    have hlen : 0 < (edges.filter (fun e => e.target == n.id)).length :=
      List.length_pos.mpr (List.ne_nil_of_mem (List.mem_filter.mpr ⟨he, by simp [het]⟩))
    rw [if_pos hlen] at hval
    rw [hresn]
    rw [hval]
  · intro hno
    have hnil : edges.filter (fun e => e.target == n.id) = [] := by
      rw [List.filter_eq_nil_iff]
      intro e he
      simp [hno e he]
    have hlen : ¬ 0 < (edges.filter (fun e => e.target == n.id)).length := by
      rw [hnil]
      simp
    rw [if_neg hlen] at hval
    rw [hresn, hval]

/-- Witness for C10 on a concrete chain of two INPUT nodes: the downstream
source node's final output is the aggregation of its incoming edge's final
output (its own "seed" pattern is discarded). -/
theorem C10_source_passthrough_witness :
    lookupRec ([("a", Value.vstr "hi"), ("b", Value.vstr "hi")] : List (String × Value))
        (fxInput "b" "seed").id =
      match aggregateInputs (([fxEdge "e" "a" "b"].filter
          (fun e => e.target == (fxInput "b" "seed").id)).filterMap
            (fun e => lookupRec ([("a", Value.vstr "hi"), ("b", Value.vstr "hi")] :
              List (String × Value)) e.source)) with
      | some v => some v
      | none => some (.vstr (jsOrEmptyStr ((fxInput "b" "seed").data.params.bind
          Params.pattern))) := by
  have hA : AcyclicEdges [fxEdge "e" "a" "b"] := by
    intro id hcyc
    have hstep : ∀ a b, EdgeRel [fxEdge "e" "a" "b"] a b → a = "a" ∧ b = "b" := by
      intro a b ⟨e, he, hs, ht⟩
      rcases List.mem_singleton.mp he with rfl
      exact ⟨hs.symm, ht.symm⟩
    have hchain : ∀ a b, Relation.TransGen (EdgeRel [fxEdge "e" "a" "b"]) a b →
        a = "a" ∧ b = "b" := by
      intro a b h
      induction h with
      | single h => exact hstep _ _ h
      | tail _ hlast ihab =>
        obtain ⟨ha, _⟩ := ihab
        obtain ⟨_, hc⟩ := hstep _ _ hlast
        exact ⟨ha, hc⟩
    obtain ⟨h1, h2⟩ := hchain id id hcyc
    rw [h1] at h2
    exact absurd h2 (by decide)
  have hex : executeFlow noRegex [fxInput "a" "hi", fxInput "b" "seed"] [fxEdge "e" "a" "b"]
      [] = some ⟨[("a", Value.vstr "hi"), ("b", Value.vstr "hi")],
        [("e", some (Value.vstr "hi"))]⟩ := by decide
  exact (C10_source_passthrough noRegex [fxInput "a" "hi", fxInput "b" "seed"]
    [fxEdge "e" "a" "b"] [] ⟨[("a", Value.vstr "hi"), ("b", Value.vstr "hi")],
      [("e", some (Value.vstr "hi"))]⟩ (fxInput "b" "seed") (by decide)
    (by intro e he; fin_cases he; simp [fxEdge, idsOf, fxInput]) hA hex (by simp)
    (by decide)).1 ⟨fxEdge "e" "a" "b", by simp, by decide⟩

/-- C10 counterexample: an INPUT node `b` seeded with "seed" has one
incoming edge, from a PROCESS node `a` that never produces an output; `b`
nevertheless ends the pass holding its seeded pattern — refuting "the
seeded pattern is the node's final output only when the node has zero
incoming edges". -/
theorem C10_counterexample :
    executeFlow noRegex [fxProcess "a" ProcessType.GREP (some "x"), fxInput "b" "seed"]
      [fxEdge "e" "a" "b"] [] =
      some ⟨[("b", Value.vstr "seed")], [("e", none)]⟩ ∧
    (fxEdge "e" "a" "b").target = (fxInput "b" "seed").id ∧
    lookupRec ([("b", Value.vstr "seed")] : List (String × Value)) (fxInput "b" "seed").id =
      some (.vstr (jsOrEmptyStr ((fxInput "b" "seed").data.params.bind Params.pattern))) := by
  exact ⟨by decide, by decide, by decide⟩

/-! ### Claim C5: dangling edges -/

theorem processed_closed (nodes : List AppNode) (edges : List AppEdge)
    (prev : List (String × Value)) (u : EngineState) (hInv : KahnInv nodes edges prev u)
    (hq : u.queue = []) (id : String) (hid : id ∈ idsOf nodes)
    (hall : ∀ e ∈ edges, e.target = id → e.source ∈ u.processed) : id ∈ u.processed := by
  have hx := hInv.cntEq id hid
  rw [hq] at hx
  simp only [List.count_nil] at hx
  by_cases htc : targetCount edges id = 0
  · rw [if_pos htc] at hx
    have hb : (if 0 < targetCount edges id ∧
        targetCount edges id ≤ deliveredTo nodes edges u.processed id
        then (1 : Nat) else 0) = 0 := by
      have hc : ¬ (0 < targetCount edges id ∧
          targetCount edges id ≤ deliveredTo nodes edges u.processed id) := by
        rintro ⟨h1, _⟩
        omega
      rw [if_neg hc]
    rw [hb] at hx
    exact List.count_pos_iff.mp (by omega)
  · have hnd := processed_nodup nodes edges prev u hInv
    have hdel : deliveredTo nodes edges u.processed id = targetCount edges id :=
      deliveredTo_full nodes edges u.processed hnd hInv.processedSub id hall
    rw [if_neg htc, if_pos ⟨by omega, by rw [hdel]⟩] at hx
    exact List.count_pos_iff.mp (by omega)

theorem runLoop_processed_minimal (E : RegexEngine) (nodes : List AppNode)
    (edges : List AppEdge) (prev : List (String × Value)) (S : String → Prop)
    (hclosed : ∀ id ∈ idsOf nodes, (∀ e ∈ edges, e.target = id → S e.source) → S id) :
    ∀ (fuel : Nat) (s u : EngineState), KahnInv nodes edges prev s →
      runLoop E fuel s = some u → (∀ id ∈ s.processed, S id) →
      ∀ id ∈ u.processed, S id := by
  intro fuel
  induction fuel with
  | zero =>
    intro s u _ h hS
    unfold runLoop at h
    split at h
    · cases h; exact hS
    · cases h
  | succ g ih =>
    intro s u hInv h hS
    cases hq : s.queue with
    | nil =>
      unfold runLoop at h
      rw [hq] at h
      dsimp only at h
      cases h
      exact hS
    | cons k rest =>
      have hstep : ∃ s2, step E s = some s2 ∧ runLoop E g s2 = some u := by
        unfold runLoop at h
        rw [hq] at h
        dsimp only at h
        revert h
        cases hs : step E s with
        | none => intro h; cases h
        | some s2 => exact fun h => ⟨s2, rfl, h⟩
      obtain ⟨s2, hs2, hrun2⟩ := hstep
      have hInv2 := KahnInv_step E nodes edges prev s s2 hInv hs2
      rcases step_cases E s s2 k rest hq hs2 with ⟨_, hs'⟩ | ⟨node, nr2, hfind, hnr, hs'⟩
      · refine ih s2 u hInv2 hrun2 ?_
        intro id hid
        rw [hs'] at hid
        exact hS id hid
      · have hfind' := hfind
        rw [hInv.frameNodes] at hfind'
        obtain ⟨hnodemem, hnodeid⟩ := find?_props nodes k node hfind'
        have hk : k ∈ idsOf nodes := hnodeid ▸ List.mem_map.mpr ⟨node, hnodemem, rfl⟩
        have hSk : S k := by
          refine hclosed k hk ?_
          intro e he het
          refine hS e.source ?_
          have hcnt := hInv.cntEq k hk
          have hq1 : 1 ≤ s.queue.count k := by
            rw [hq]
            simp [List.count_cons]
          have htc1 : 1 ≤ targetCount edges k := targetCount_pos_of_mem edges e he k het
          have hbr : targetCount edges k ≤ deliveredTo nodes edges s.processed k := by
            by_contra hlt
            have hb1 : (if targetCount edges k = 0 then (1 : Nat) else 0) = 0 := by
              have hc : ¬ targetCount edges k = 0 := by omega
              rw [if_neg hc]
            have hb2 : (if 0 < targetCount edges k ∧
                targetCount edges k ≤ deliveredTo nodes edges s.processed k
                then (1 : Nat) else 0) = 0 := by
              have hc : ¬ (0 < targetCount edges k ∧
                  targetCount edges k ≤ deliveredTo nodes edges s.processed k) :=
                fun hc => hlt hc.2
              rw [if_neg hc]
            rw [hb1, hb2] at hcnt
            omega
          by_contra hnpsrc
          have := deliveredTo_lt nodes edges s.processed
            (processed_nodup nodes edges prev s hInv) hInv.processedSub k e he het hnpsrc
          omega
        refine ih s2 u hInv2 hrun2 ?_
        intro id hid
        have hid2 : id ∈ s.processed ++ [k] := by
          rw [hs'] at hid
          exact hid
        rcases List.mem_append.mp hid2 with hmm | hmm
        · exact hS id hmm
        · rw [List.mem_singleton.mp hmm]
          exact hSk

theorem runLoop_node_value (E : RegexEngine) (nodes : List AppNode) (edges : List AppEdge)
    (prev : List (String × Value)) (n : AppNode) (hN : (idsOf nodes).Nodup)
    (hmem : n ∈ nodes) :
    ∀ (fuel : Nat) (s u : EngineState), KahnInv nodes edges prev s →
      runLoop E fuel s = some u → n.id ∉ s.processed → n.id ∈ u.processed →
      lookupRec u.nodeResults n.id =
        if 0 < (edges.filter (fun e => e.target == n.id)).length then
          match aggregateInputs ((edges.filter (fun e => e.target == n.id)).filterMap
              (fun e => lookupRec u.nodeResults e.source)) with
          | some v => dispatchNode E n prev v
          | none => lookupRec (seedResults nodes) n.id
        else lookupRec (seedResults nodes) n.id := by
  intro fuel
  induction fuel with
  | zero =>
    intro s u _ h hnp hup
    unfold runLoop at h
    split at h
    · cases h
      exact absurd hup hnp
    · cases h
  | succ g ih =>
    intro s u hInv h hnp hup
    cases hq : s.queue with
    | nil =>
      unfold runLoop at h
      rw [hq] at h
      dsimp only at h
      cases h
      exact absurd hup hnp
    | cons k rest =>
      have hstep : ∃ s2, step E s = some s2 ∧ runLoop E g s2 = some u := by
        unfold runLoop at h
        rw [hq] at h
        dsimp only at h
        revert h
        cases hs : step E s with
        | none => intro h; cases h
        | some s2 => exact fun h => ⟨s2, rfl, h⟩
      obtain ⟨s2, hs2, hrun2⟩ := hstep
      have hInv2 := KahnInv_step E nodes edges prev s s2 hInv hs2
      by_cases hk : k = n.id
      · subst hk
        rcases step_cases E s s2 n.id rest hq hs2 with ⟨hfindn, _⟩ |
          ⟨node, nr2, hfind, hnr, hs'⟩
        · rw [hInv.frameNodes] at hfindn
          exact absurd (List.mem_map.mpr ⟨n, hmem, rfl⟩)
            ((find?_eq_none_iff_not_mem nodes n.id).mp hfindn)
        · have hfind' := hfind
          rw [hInv.frameNodes, find?_of_nodup nodes n hN hmem] at hfind'
          cases hfind'
          have hproc2 : n.id ∈ s2.processed := by
            rw [hs']
            exact List.mem_append.mpr (Or.inr (List.mem_singleton.mpr rfl))
          have hinceq : stepIncoming s n.id = edges.filter (fun e => e.target == n.id) := by
            unfold stepIncoming
            rw [hInv.frameEdges]
          have hufinal := (runLoop_stable_processed E nodes edges prev g s2 u hInv2 hrun2
            n.id hproc2).1
          by_cases hinc : 0 < (edges.filter (fun e => e.target == n.id)).length
          · rw [if_pos hinc]
            have hid : n.id ∈ idsOf nodes := List.mem_map.mpr ⟨n, hmem, rfl⟩
            obtain ⟨e0, he0f⟩ := List.exists_mem_of_length_pos hinc
            obtain ⟨he0, he0t⟩ := List.mem_filter.mp he0f
            have he0t' : e0.target = n.id := by simpa using he0t
            have hcnt := hInv.cntEq n.id hid
            have hq1 : 1 ≤ s.queue.count n.id := by
              rw [hq]
              simp [List.count_cons]
            have htc1 : 1 ≤ targetCount edges n.id :=
              targetCount_pos_of_mem edges e0 he0 n.id he0t'
            have hbr : targetCount edges n.id ≤ deliveredTo nodes edges s.processed n.id := by
              by_contra hlt
              have hb1 : (if targetCount edges n.id = 0 then (1 : Nat) else 0) = 0 := by
                have hc : ¬ targetCount edges n.id = 0 := by omega
                rw [if_neg hc]
              have hb2 : (if 0 < targetCount edges n.id ∧
                  targetCount edges n.id ≤ deliveredTo nodes edges s.processed n.id
                  then (1 : Nat) else 0) = 0 := by
                have hc : ¬ (0 < targetCount edges n.id ∧
                    targetCount edges n.id ≤ deliveredTo nodes edges s.processed n.id) :=
                  fun hc => hlt hc.2
                rw [if_neg hc]
              rw [hb1, hb2] at hcnt
              omega
            have hallp : ∀ e ∈ edges.filter (fun e => e.target == n.id),
                e.source ∈ s.processed := by
              intro e hef
              obtain ⟨he, het⟩ := List.mem_filter.mp hef
              have het' : e.target = n.id := by simpa using het
              by_contra hnpsrc
              have := deliveredTo_lt nodes edges s.processed
                (processed_nodup nodes edges prev s hInv) hInv.processedSub n.id e he het'
                hnpsrc
              omega
            have hinputs : (edges.filter (fun e => e.target == n.id)).filterMap
                (fun e => lookupRec u.nodeResults e.source) = stepInputs s n.id := by
              unfold stepInputs
              rw [hinceq]
              refine List.filterMap_congr (fun e he => ?_)
              rw [(runLoop_stable_processed E nodes edges prev (g + 1) s u hInv h
                e.source (hallp e he)).1]
            have hdata : stepInputData s n.id n = aggregateInputs
                ((edges.filter (fun e => e.target == n.id)).filterMap
                  (fun e => lookupRec u.nodeResults e.source)) := by
              unfold stepInputData
              rw [hinceq, if_pos hinc, hinputs]
            rcases stepNR_cases E s n.id n nr2 hnr with ⟨hnone, hnr2⟩ |
              ⟨w, out, hw, hout, hnr2⟩
            · rw [hnone] at hdata
              rw [← hdata]
              have hseed := hInv.unwritten n.id hnp
              have hs2val : lookupRec s2.nodeResults n.id = lookupRec s.nodeResults n.id := by
                rw [hs']
                show lookupRec nr2 n.id = _
                rw [hnr2]
              rw [hufinal, hs2val, hseed]
            · rw [hw] at hdata
              rw [← hdata]
              rw [hInv.framePrev] at hout
              show lookupRec u.nodeResults n.id = dispatchNode E n prev w
              rw [hout]
              have hs2val : lookupRec s2.nodeResults n.id = some out := by
                rw [hs']
                show lookupRec nr2 n.id = _
                rw [hnr2, lookupRec_setEntry_self]
              rw [hufinal, hs2val]
          · rw [if_neg hinc]
            have hseed := hInv.unwritten n.id hnp
            have hlen0 : ¬ (stepIncoming s n.id).length > 0 := by
              rw [hinceq]
              omega
            rcases stepNR_cases E s n.id n nr2 hnr with ⟨hnone, hnr2⟩ |
              ⟨w, out, hw, hout, hnr2⟩
            · have hs2val : lookupRec s2.nodeResults n.id = lookupRec s.nodeResults n.id := by
                rw [hs']
                show lookupRec nr2 n.id = _
                rw [hnr2]
              rw [hufinal, hs2val, hseed]
            · have hdata : stepInputData s n.id n =
                  (if n.data.type = NodeType.INPUT ∨ n.data.type = NodeType.EMITTER then
                    lookupRec s.nodeResults n.id else none) := by
                unfold stepInputData
                rw [if_neg hlen0]
              rw [hw] at hdata
              by_cases hsrc : n.data.type = NodeType.INPUT ∨ n.data.type = NodeType.EMITTER
              · rw [if_pos hsrc] at hdata
                rw [dispatchNode_source E n s.prevNodeResults w hsrc] at hout
                cases hout
                have hs2val : lookupRec s2.nodeResults n.id = some w := by
                  rw [hs']
                  show lookupRec nr2 n.id = _
                  rw [hnr2, lookupRec_setEntry_self]
                rw [hufinal, hs2val, ← hseed, hdata]
              · rw [if_neg hsrc] at hdata
                cases hdata
      · have hnp2 : n.id ∉ s2.processed := by
          rcases step_cases E s s2 k rest hq hs2 with ⟨_, hs'⟩ | ⟨node, nr2, _, _, hs'⟩
          · subst hs'
            exact hnp
          · subst hs'
            intro hmem2
            rcases List.mem_append.mp hmem2 with hmm | hmm
            · exact hnp hmm
            · exact hk (List.mem_singleton.mp hmm).symm
        exact ih s2 u hInv2 hrun2 hnp2 hup

/-- C5 (amended): the engine tolerates dangling edges without error, but
the two kinds are not alike.  In a graph (distinct node ids, no directed
cycle) containing an edge whose TARGET matches no node, dropping that edge
changes no node's output: every id's entry in the returned node-output map
is the same with and without it (its phantom target is dequeued and
skipped).  An edge whose SOURCE matches no node, however, permanently
inflates the in-degree of its existing target: that target is never
scheduled and ends the pass still holding its seeded entry (its seeded
pattern for a source node, no entry otherwise) — not the output it would
receive if the dangling edge were absent, see the counterexample. -/
theorem C5_dangling_edges (E : RegexEngine) (nodes : List AppNode) (el er : List AppEdge)
    (e0 : AppEdge) (prev : List (String × Value)) (resF : FlowExecutionResult)
    (hN : (idsOf nodes).Nodup) (hA : AcyclicEdges (el ++ e0 :: er))
    (hexF : executeFlow E nodes (el ++ e0 :: er) prev = some resF) :
    (e0.target ∉ idsOf nodes →
      ∀ resR, executeFlow E nodes (el ++ er) prev = some resR →
      ∀ id, lookupRec resF.nodeResults id = lookupRec resR.nodeResults id) ∧
    (e0.source ∉ idsOf nodes →
      lookupRec resF.nodeResults e0.target = lookupRec (seedResults nodes) e0.target) := by
  unfold executeFlow at hexF
  rcases Option.map_eq_some'.mp hexF with ⟨uF, huF, hresF⟩
  have hresFn : resF.nodeResults = uF.nodeResults := by rw [← hresF]
  have hInvF : KahnInv nodes (el ++ e0 :: er) prev uF :=
    KahnInv_runLoop E nodes _ prev _ _ uF (KahnInv_init nodes _ prev hN) huF
  have hqF : uF.queue = [] := runLoop_some_queue_nil E _ _ uF huF
  constructor
  · intro ht resR hexR id
    unfold executeFlow at hexR
    rcases Option.map_eq_some'.mp hexR with ⟨uR, huR, hresR⟩
    have hresRn : resR.nodeResults = uR.nodeResults := by rw [← hresR]
    have hInvR : KahnInv nodes (el ++ er) prev uR :=
      KahnInv_runLoop E nodes _ prev _ _ uR (KahnInv_init nodes _ prev hN) huR
    have hqR : uR.queue = [] := runLoop_some_queue_nil E _ _ uR huR
    have hsubE : ∀ e, e ∈ el ++ er → e ∈ el ++ e0 :: er := by
      intro e he
      rcases List.mem_append.mp he with h | h
      · exact List.mem_append.mpr (Or.inl h)
      · exact List.mem_append.mpr (Or.inr (List.mem_cons_of_mem e0 h))
    have hsubE' : ∀ e, e ∈ el ++ e0 :: er → e = e0 ∨ e ∈ el ++ er := by
      intro e he
      rcases List.mem_append.mp he with h | h
      · exact Or.inr (List.mem_append.mpr (Or.inl h))
      · rcases List.mem_cons.mp h with h | h
        · exact Or.inl h
        · exact Or.inr (List.mem_append.mpr (Or.inr h))
    have hPF : ∀ j ∈ uF.processed, j ∈ uR.processed := by
      refine runLoop_processed_minimal E nodes (el ++ e0 :: er) prev (· ∈ uR.processed)
        ?_ _ _ uF (KahnInv_init nodes _ prev hN) huF (fun j hj => by cases hj)
      intro j hj hall
      refine processed_closed nodes (el ++ er) prev uR hInvR hqR j hj ?_
      intro e he het
      exact hall e (hsubE e he) het
    have hPR : ∀ j ∈ uR.processed, j ∈ uF.processed := by
      refine runLoop_processed_minimal E nodes (el ++ er) prev (· ∈ uF.processed)
        ?_ _ _ uR (KahnInv_init nodes _ prev hN) huR (fun j hj => by cases hj)
      intro j hj hall
      refine processed_closed nodes (el ++ e0 :: er) prev uF hInvF hqF j hj ?_
      intro e he het
      rcases hsubE' e he with rfl | he2
      · exact absurd (by rw [het]; exact hj) ht
      · exact hall e he2 het
    have hfilter : ∀ i, i ∈ idsOf nodes →
        (el ++ e0 :: er).filter (fun e => e.target == i) =
        (el ++ er).filter (fun e => e.target == i) := by
      intro i hi
      have hne : (e0.target == i) = false := by
        refine beq_eq_false_iff_ne.mpr ?_
        intro hc
        exact ht (by rw [hc]; exact hi)
      simp [List.filter_append, List.filter_cons, hne]
    have hunFR : ∀ j, j ∉ uF.processed → j ∉ uR.processed →
        lookupRec uF.nodeResults j = lookupRec uR.nodeResults j := by
      intro j h1 h2
      rw [hInvF.unwritten j h1, hInvR.unwritten j h2]
    haveI hfin : Finite {x : String // x ∈ idsOf nodes} :=
      (List.finite_toSet (idsOf nodes)).to_subtype
    let r : {x : String // x ∈ idsOf nodes} → {x : String // x ∈ idsOf nodes} → Prop :=
      fun a b => Relation.TransGen (EdgeRel (el ++ e0 :: er)) a.val b.val
    haveI : IsTrans {x : String // x ∈ idsOf nodes} r :=
      ⟨fun a b c hab hbc => Relation.TransGen.trans hab hbc⟩
    haveI : IsIrrefl {x : String // x ∈ idsOf nodes} r := ⟨fun a ha => hA a.val ha⟩
    have hwf : WellFounded r := Finite.wellFounded_of_trans_of_irrefl r
    have main : ∀ a : {x : String // x ∈ idsOf nodes},
        lookupRec uF.nodeResults a.val = lookupRec uR.nodeResults a.val := by
      intro a
      refine hwf.induction (C := fun a => lookupRec uF.nodeResults a.val =
        lookupRec uR.nodeResults a.val) a ?_
      intro x ihx
      by_cases hproc : x.val ∈ uF.processed
      · obtain ⟨n, hnmem, hnid⟩ := List.mem_map.mp x.prop
        have hprocR : x.val ∈ uR.processed := hPF _ hproc
        have hvF := runLoop_node_value E nodes (el ++ e0 :: er) prev n hN hnmem _ _ uF
          (KahnInv_init nodes _ prev hN) huF (fun hc => by cases hc)
          (by rw [hnid]; exact hproc)
        have hvR := runLoop_node_value E nodes (el ++ er) prev n hN hnmem _ _ uR
          (KahnInv_init nodes _ prev hN) huR (fun hc => by cases hc)
          (by rw [hnid]; exact hprocR)
        rw [hfilter n.id (by rw [hnid]; exact x.prop)] at hvF
        have hinps : ((el ++ er).filter (fun e => e.target == n.id)).filterMap
            (fun e => lookupRec uF.nodeResults e.source) =
            ((el ++ er).filter (fun e => e.target == n.id)).filterMap
            (fun e => lookupRec uR.nodeResults e.source) := by
          refine List.filterMap_congr ?_
          intro e he
          obtain ⟨heE, het⟩ := List.mem_filter.mp he
          have het' : e.target = n.id := by simpa using het
          by_cases hsrcid : e.source ∈ idsOf nodes
          · exact ihx ⟨e.source, hsrcid⟩ (Relation.TransGen.single
              ⟨e, hsubE e heE, rfl, by rw [het', hnid]⟩)
          · have h1 : e.source ∉ uF.processed := fun hc => hsrcid (hInvF.processedSub _ hc)
            have h2 : e.source ∉ uR.processed := fun hc => hsrcid (hInvR.processedSub _ hc)
            exact hunFR e.source h1 h2
        rw [← hnid]
        rw [hvF, hvR, hinps]
      · have hprocR : x.val ∉ uR.processed := fun h => hproc (hPR _ h)
        exact hunFR x.val hproc hprocR
    by_cases hid : id ∈ idsOf nodes
    · rw [hresFn, hresRn]
      exact main ⟨id, hid⟩
    · have h1 : id ∉ uF.processed := fun hc => hid (hInvF.processedSub _ hc)
      have h2 : id ∉ uR.processed := fun hc => hid (hInvR.processedSub _ hc)
      rw [hresFn, hresRn]
      exact hunFR id h1 h2
  · intro hs
    rw [hresFn]
    by_cases hidT : e0.target ∈ idsOf nodes
    · have hnp : e0.target ∉ uF.processed := by
        intro hproc
        have hx := hInvF.cntEq e0.target hidT
        rw [hqF] at hx
        simp only [List.count_nil] at hx
        have he0mem : e0 ∈ el ++ e0 :: er :=
          List.mem_append.mpr (Or.inr (List.mem_cons_self e0 er))
        have htc1 : 1 ≤ targetCount (el ++ e0 :: er) e0.target :=
          targetCount_pos_of_mem _ e0 he0mem e0.target rfl
        have hsrcnp : e0.source ∉ uF.processed := fun hc => hs (hInvF.processedSub _ hc)
        have hlt := deliveredTo_lt nodes (el ++ e0 :: er) uF.processed
          (processed_nodup nodes _ prev uF hInvF) hInvF.processedSub e0.target e0 he0mem
          rfl hsrcnp
        have hb1 : (if targetCount (el ++ e0 :: er) e0.target = 0
            then (1 : Nat) else 0) = 0 := by
          have hc : ¬ targetCount (el ++ e0 :: er) e0.target = 0 := by omega
          rw [if_neg hc]
        have hb2 : (if 0 < targetCount (el ++ e0 :: er) e0.target ∧
            targetCount (el ++ e0 :: er) e0.target ≤
              deliveredTo nodes (el ++ e0 :: er) uF.processed e0.target
            then (1 : Nat) else 0) = 0 := by
          have hc : ¬ (0 < targetCount (el ++ e0 :: er) e0.target ∧
              targetCount (el ++ e0 :: er) e0.target ≤
                deliveredTo nodes (el ++ e0 :: er) uF.processed e0.target) := by
            intro hcc
            omega
          rw [if_neg hc]
        rw [hb1, hb2] at hx
        have hcp : 0 < uF.processed.count e0.target := List.count_pos_iff.mpr hproc
        omega
      exact hInvF.unwritten e0.target hnp
    · have hnp : e0.target ∉ uF.processed := fun hc => hidT (hInvF.processedSub _ hc)
      exact hInvF.unwritten e0.target hnp

/-- Witness for C5 part (a) on a concrete graph: one INPUT node with an
edge to a nonexistent target id; dropping the dangling edge leaves the
node's recorded output unchanged. -/
theorem C5_dangling_edges_witness :
    lookupRec ([("a", Value.vstr "hi")] : List (String × Value)) "a" =
      lookupRec ([("a", Value.vstr "hi")] : List (String × Value)) "a" := by
  have hA : AcyclicEdges ([] ++ fxEdge "e" "a" "ghost" :: []) := by
    intro id hcyc
    have hstep : ∀ a b, EdgeRel ([] ++ fxEdge "e" "a" "ghost" :: []) a b →
        a = "a" ∧ b = "ghost" := by
      intro a b ⟨e, he, hs, ht⟩
      rcases List.mem_singleton.mp he with rfl
      exact ⟨hs.symm, ht.symm⟩
    have hchain : ∀ a b, Relation.TransGen (EdgeRel ([] ++ fxEdge "e" "a" "ghost" :: [])) a b →
        a = "a" ∧ b = "ghost" := by
      intro a b h
      induction h with
      | single h => exact hstep _ _ h
      | tail _ hlast ihab =>
        obtain ⟨ha, _⟩ := ihab
        obtain ⟨_, hc⟩ := hstep _ _ hlast
        exact ⟨ha, hc⟩
    obtain ⟨h1, h2⟩ := hchain id id hcyc
    rw [h1] at h2
    exact absurd h2 (by decide)
  have hexF : executeFlow noRegex [fxInput "a" "hi"] ([] ++ fxEdge "e" "a" "ghost" :: []) [] =
      some ⟨[("a", Value.vstr "hi")], []⟩ := by decide
  have happ := (C5_dangling_edges noRegex [fxInput "a" "hi"] [] [] (fxEdge "e" "a" "ghost")
    [] ⟨[("a", Value.vstr "hi")], []⟩ (by decide) hA hexF).1 (by decide)
    ⟨[("a", Value.vstr "hi")], []⟩ (by decide) "a"
  exact happ

/-- C5 counterexample: an edge from a nonexistent source onto the INPUT
node `b` blocks `b` from ever being scheduled, so its successor `c`
receives no output; with the dangling edge removed, `c` receives "x" —
the existing nodes are NOT scheduled exactly as if the dangling edge were
absent. -/
theorem C5_counterexample :
    executeFlow noRegex [fxInput "b" "x", fxOutput "c"]
      [fxEdge "g" "ghost" "b", fxEdge "f" "b" "c"] [] =
      some ⟨[("b", Value.vstr "x")], []⟩ ∧
    executeFlow noRegex [fxInput "b" "x", fxOutput "c"] [fxEdge "f" "b" "c"] [] =
      some ⟨[("b", Value.vstr "x"), ("c", Value.vstr "x")], [("f", some (Value.vstr "x"))]⟩ ∧
    (fxEdge "g" "ghost" "b").source ∉ idsOf [fxInput "b" "x", fxOutput "c"] ∧
    lookupRec ([("b", Value.vstr "x")] : List (String × Value)) "c" ≠
      lookupRec ([("b", Value.vstr "x"), ("c", Value.vstr "x")] : List (String × Value)) "c" := by
  exact ⟨by decide, by decide, by decide, by decide⟩
